import Mathlib

/-!  Verification of the PLONK proof-system core in `src/mpc-plonk/src/lib.rs`.

Polynomials are dense coefficient lists over a field `F`, mirroring
`ark_poly::univariate::DensePolynomial` (index `i` holds the coefficient of
`X ^ i`).  The external arithmetic primitives the core calls (polynomial
division `divide_with_q_and_r`, the coset-FFT quotient by a vanishing
polynomial, `Evaluations::interpolate`, Lagrange interpolation) are given
executable reference implementations of the contracts the protocol relies on.
The Fiat-Shamir transcript is an explicit event log: a challenge is an
arbitrary deterministic function of the log, and drawing a challenge advances
the log, as in `util::FiatShamirRng`.  The polynomial-commitment scheme is an
abstract record of `commit`, `open` and `check` operations.  Secret-sharing
`publicize`/`reveal` calls are identity operations in the single-party
(plaintext) model and are omitted.  -/

set_option linter.unusedSectionVars false

namespace MpcPlonk

variable {F : Type} [Field F] [DecidableEq F] {C : Type} {Pf : Type}

namespace Poly

/-- Horner evaluation of a dense coefficient list at `x`. -/
def eval (l : List F) (x : F) : F := l.foldr (fun c acc => c + x * acc) 0

/-- Coefficientwise sum, keeping the longer list's tail (ark dense `+`). -/
def addPad : List F → List F → List F
  | [], q => q
  | a :: p, [] => a :: p
  | a :: p, b :: q => (a + b) :: addPad p q

/-- Coefficientwise negation. -/
def neg (p : List F) : List F := p.map fun c => -c

/-- Difference of dense polynomials. -/
def sub (p q : List F) : List F := addPad p (neg q)

/-- Multiplication by the constant `c`. -/
def smul (c : F) (p : List F) : List F := p.map fun a => c * a

/-- Convolution product of dense polynomials. -/
def mul : List F → List F → List F
  | [], _ => []
  | a :: p, q => addPad (smul a q) (0 :: mul p q)

/-- Helper for `shiftScale`: coefficient `i` of the input is multiplied by
`acc * w ^ i`. -/
def shiftScaleAux (w : F) (acc : F) : List F → List F
  | [] => []
  | c :: t => (acc * c) :: shiftScaleAux w (w * acc) t

/-- `p(w·X)` as a coefficient list: coefficient `i` is multiplied by `w ^ i`.
This is both ark's `distribute_powers` and `util::shift` (the latter is not
under `src/`; the spec fixes its meaning as `Pshift1 = P(w·X)`). -/
def shiftScale (w : F) (l : List F) : List F := shiftScaleAux w 1 l

/-- Remove trailing zero coefficients. -/
def trim : List F → List F
  | [] => []
  | a :: t =>
    match trim t with
    | [] => if a = 0 then [] else [a]
    | b :: r => a :: b :: r

/-- Leading coefficient of a trimmed list (`0` for the empty list). -/
def lead (l : List F) : F := l.getLastD 0

/-- Fuel-indexed polynomial long division: one step cancels the leading
coefficient of the remainder against the divisor, as
`DenseOrSparsePolynomial::divide_with_q_and_r` does. -/
def divModAux : Nat → List F → List F → List F × List F
  | 0, r, _ => ([], trim r)
  | fuel + 1, r, d =>
    let r1 := trim r
    let dt := trim d
    if r1.length < dt.length then ([], r1)
    else
      let deg := r1.length - dt.length
      let c := lead r1 / lead dt
      let r2 := sub r1 (List.replicate deg 0 ++ smul c dt)
      let qr := divModAux fuel r2 d
      (addPad qr.1 (List.replicate deg 0 ++ [c]), qr.2)

/-- Quotient and remainder of `p` by `d` (the external ark polynomial
division primitive: `p = q·d + r` with `deg r < deg d`). -/
def divMod (p d : List F) : List F × List F := divModAux p.length p d

/-- Ruffini quotient of `l` by `(X - x0)`:
`eval l x = (x - x0) * eval (synthDiv l x0) x + eval l x0`. -/
def synthDiv (l : List F) (x0 : F) : List F :=
  match l with
  | [] => []
  | _ :: t => addPad t (smul x0 (synthDiv t x0))

/-- The vanishing polynomial `X ^ k - 1` of a size-`k` multiplicative
evaluation domain, as a coefficient list. -/
def vanishing (k : Nat) : List F := addPad (List.replicate k 0 ++ [1]) [-1]

end Poly

/-- The evaluations of `f` at the `k` domain points `w ^ 0, …, w ^ (k-1)`
(ark `evaluate_over_domain_by_ref`). -/
def evalsOnDomain (f : List F) (k : Nat) (w : F) : List F :=
  (List.range k).map fun i => Poly.eval f (w ^ i)

/-- Helper for `partial_products_in_place`: each element is multiplied by the
running product `acc` of everything before it. -/
def partialProductsAux (acc : F) : List F → List F
  | [] => []
  | x :: t => (acc * x) :: partialProductsAux (acc * x) t

/-- Replace `[x1, x2, …, xn]` with `[x1, x1*x2, …, x1*x2*…*xn]`
(`partial_products_in_place`, `src/mpc-plonk/src/lib.rs` lines 89-94; the
first element is left untouched by the in-place loop). -/
def partial_products_in_place (l : List F) : List F :=
  match l with
  | [] => []
  | x :: t => x :: partialProductsAux x t

/-- Inverse DFT over the size-`k` domain generated by `w`: coefficient `j` is
`k⁻¹ · Σ_i e_i · w ^ (-i·j)`.  This is ark's `Evaluations::interpolate`
(external primitive): the unique polynomial of degree `< k` whose evaluation
at `w ^ i` is `e_i`. -/
def idft (k : Nat) (w : F) (e : List F) : List F :=
  (List.range k).map fun j =>
    (k : F)⁻¹ * ((List.range k).map fun i => e.getD i 0 * (w ^ (i * j))⁻¹).sum

/-- Helper for `interpolate`: the Lagrange basis polynomial for node `xj`
among `nodes`, built as `Π_{xi ≠ xj} (X - xi) / (xj - xi)`. -/
def lagBasis (nodes : List F) (xj : F) : List F :=
  nodes.foldr
    (fun xi acc =>
      if xi = xj then acc
      else Poly.smul (xj - xi)⁻¹ (Poly.sub (0 :: acc) (Poly.smul xi acc)))
    [1]

/-- Helper for `interpolate` with the node list held fixed. -/
def interpAux (ns : List F) (pts : List (F × F)) : List F :=
  pts.foldr (fun pt acc => Poly.addPad acc (Poly.smul pt.2 (lagBasis ns pt.1))) []

/-- Modelled from the spec: `util::interpolate` is not under `src/`; the spec
says to "interpolate polynomial `V` through `(point, value)` pairs", which is
Lagrange interpolation through the given points. -/
def interpolate (pts : List (F × F)) : List F := interpAux (pts.map Prod.fst) pts

/-- A multiplicative evaluation domain: its size and its group generator
(`EvaluationDomain`: `size()`, `group_gen`, `element(i) = group_gen ^ i`). -/
structure Domain (F : Type) where
  size : Nat
  group_gen : F

/-- `domain.element i = group_gen ^ i`. -/
def Domain.element (d : Domain F) (i : Nat) : F := d.group_gen ^ i

/-- The gate and wire evaluation domains of a circuit layout. -/
structure Domains (F : Type) where
  gates : Domain F
  wires : Domain F

/-- The flat circuit layout consumed by the core
(`relations::flat::CircuitLayout`): the optional wire polynomial `p` (present
for the prover, absent for the verifier), the selector `s`, the wiring
polynomial `w`, the two domains and the named public-input indices. -/
structure CircuitLayout (F : Type) where
  p : Option (List F)
  s : List F
  w : List F
  domains : Domains F
  public_indices : List (String × Nat)

/-- Modelled from the spec: `CircuitLayout::vanishing_poly_on_inputs` lives in
the `relations` module, which is not under `src/`; the spec fixes it as "the
vanishing polynomial of exactly the public-input points".  Each step multiplies
the accumulator by the linear factor `(X - xi)`. -/
def CircuitLayout.vanishing_poly_on_inputs (circ : CircuitLayout F) : List F :=
  (circ.public_indices.map fun ni => circ.domains.wires.element ni.2).foldr
    (fun x0 acc => Poly.sub (0 :: acc) (Poly.smul x0 acc)) [1]

/-- Total lookup in a declared name-to-value map. -/
def lookupD (m : List (String × F)) (nm : String) : F :=
  ((m.find? fun kv => kv.1 = nm).map Prod.snd).getD 0

/-- Modelled from the spec: `CircuitLayout::inputs_poly` lives in the
`relations` module, which is not under `src/`; the spec says the verifier
"independently reconstructs `V` from the *declared* public map": each declared
index is evaluated into a wiring-domain point and `V` interpolates the
`(point, declared value)` pairs. -/
def CircuitLayout.inputs_poly (circ : CircuitLayout F) (public : List (String × F)) : List F :=
  interpolate (circ.public_indices.map fun ni =>
    (circ.domains.wires.element ni.2, lookupD public ni.1))

/-- A labeled commitment: label, commitment value and optional degree bound
(`ark_poly_commit::LabeledCommitment`); this is what both sides serialize into
the transcript. -/
structure LCmt (C : Type) where
  label : String
  cmt : C
  degree : Option Nat

/-- A Fiat-Shamir transcript event: a labeled commitment was absorbed, or a
challenge was drawn (drawing advances the RNG state). -/
inductive FSEvent (C : Type) where
  | absorb : LCmt C → FSEvent C
  | draw : FSEvent C

/-- The Fiat-Shamir transcript state (`util::FiatShamirRng`): the log of all
events so far, starting from the seed. -/
structure FS (C : Type) where
  log : List (FSEvent C)

/-- A freshly seeded transcript. -/
def FS.init : FS C := ⟨[]⟩

/-- Absorb a labeled commitment's serialization into the transcript. -/
def FS.absorb (ts : FS C) (lc : LCmt C) : FS C := ⟨ts.log ++ [FSEvent.absorb lc]⟩

/-- The challenge `gen::<F>()` returns at the current state: `chal` is the
deterministic challenge function of the underlying hash. -/
def FS.challenge (chal : List (FSEvent C) → F) (ts : FS C) : F := chal ts.log

/-- The transcript state after `gen::<F>()` has drawn one challenge. -/
def FS.afterDraw (ts : FS C) : FS C := ⟨ts.log ++ [FSEvent.draw]⟩

/-- The abstract polynomial-commitment scheme (spec §6): `commit` takes the
degree bound of the labeled polynomial, `openAt` produces an opening proof at
a point, `check` verifies a claimed evaluation against a labeled
commitment. -/
structure PCS (F C Pf : Type) where
  commit : Option Nat → List F → C
  openAt : List F → F → Pf
  check : LCmt C → F → F → Pf → Bool

/-- Evidence that polynomial `f`'s evaluations over a domain multiply to 1
(`data_structures::ProductProof`). -/
structure ProductProof (C : Type) (O : Type) where
  t_cmt : C
  q_cmt : C
  t_wk_open : O
  t_r_open : O
  t_wr_open : O
  f_wr_open : O
  q_r_open : O

/-- Evidence `P` respects the declared wiring permutation
(`data_structures::WiringProof`). -/
structure WiringProof (C : Type) (O : Type) where
  l1_cmt : C
  l1_prod_pf : ProductProof C O
  l2_q_cmt : C
  p_x_open : O
  w_x_open : O
  l1_x_open : O
  l2_q_x_open : O

/-- Evidence the gate identity holds on the gate domain
(`data_structures::GateProof`). -/
structure GateProof (C : Type) (O : Type) where
  q_cmt : C
  s_open : O
  q_open : O
  p_open : O
  p_w_open : O
  p_w2_open : O

/-- Evidence `P` matches the declared public values
(`data_structures::PublicProof`). -/
structure PublicProof (C : Type) (O : Type) where
  q_cmt : C
  q_open : O
  p_open : O

/-- The full non-interactive proof (`data_structures::Proof`); openings are
`(value, opening proof)` pairs. -/
structure Proof (F C Pf : Type) where
  p_cmt : C
  wiring : WiringProof C (F × Pf)
  gates : GateProof C (F × Pf)
  public : PublicProof C (F × Pf)

/-- Shared setup data (`data_structures::PubParams`): wiring and selector
polynomials with their commitments. -/
structure PubParams (F C : Type) where
  w : List F
  w_cmt : LCmt C
  s : List F
  s_cmt : LCmt C

/-- The verifier's commitment-only projection of `PubParams`. -/
structure VerifierParams (C : Type) where
  w_cmt : LCmt C
  s_cmt : LCmt C

/-- `VerifierParams::from(&PubParams)`. -/
def VerifierParams.ofPub (pp : PubParams F C) : VerifierParams C :=
  { w_cmt := pp.w_cmt, s_cmt := pp.s_cmt }

/-- `setup`: one-time per-circuit commitment of the wiring polynomial `w` and
selector `s` (labels `"w"`, `"s"`, no degree bound), `lib.rs` lines 37-58. -/
def setup (pcs : PCS F C Pf) (circ : CircuitLayout F) : PubParams F C :=
  { w := circ.w
    w_cmt := { label := "w", cmt := pcs.commit none circ.w, degree := none }
    s := circ.s
    s_cmt := { label := "s", cmt := pcs.commit none circ.s, degree := none } }

/-- `Prover::commit`'s commitment value: the labeled commitment that is
publicized and absorbed into the transcript. -/
def labeledCmt (pcs : PCS F C Pf) (label : String) (degree : Option Nat) (p : List F) : LCmt C :=
  { label := label, cmt := pcs.commit degree p, degree := degree }

/-- `Prover::eval`: evaluate `p` at `x` and produce an opening proof
(the MPC `publicize` of the value is the identity in the plaintext model). -/
def evalOpen (pcs : PCS F C Pf) (p : List F) (x : F) : F × Pf :=
  (Poly.eval p x, pcs.openAt p x)

/-- `Prover::prove_unit_product` (`lib.rs` lines 102-184): build the partial
products `t` of `f`'s domain evaluations, interpolate and commit it, derive
the quotient `q` of `t(wX) - t(X)·f(wX)` by the domain vanishing polynomial
(computed in the source by a coset FFT, an external ark primitive embedded
here as the exact division it implements), commit it, draw `r`, and open
`t` at `w^(k-1)`, `r` and `w·r`, `f` at `w·r` and `q` at `r`. -/
def prove_unit_product (pcs : PCS F C Pf) (chal : List (FSEvent C) → F)
    (f : List F) (dom : Domain F) (ts : FS C) :
    ProductProof C (F × Pf) × FS C :=
  let k := dom.size
  let w := dom.element 1
  let tEvals := partial_products_in_place (evalsOnDomain f k dom.group_gen)
  let t := idft k dom.group_gen tEvals
  let tLC := labeledCmt pcs "t" none t
  let ts1 := ts.absorb tLC
  let q := (Poly.divMod
    (Poly.sub (Poly.shiftScale w t) (Poly.mul (Poly.shiftScale w f) t))
    (Poly.vanishing k)).1
  let qLC := labeledCmt pcs "q" none q
  let ts2 := ts1.absorb qLC
  let r := FS.challenge chal ts2
  let ts3 := ts2.afterDraw
  ({ t_cmt := tLC.cmt
     q_cmt := qLC.cmt
     t_wk_open := evalOpen pcs t (dom.element (k - 1))
     t_r_open := evalOpen pcs t r
     t_wr_open := evalOpen pcs t (w * r)
     f_wr_open := evalOpen pcs f (w * r)
     q_r_open := evalOpen pcs q r }, ts3)

/-- `Prover::prove_wiring` (`lib.rs` lines 187-242): draw `y, z`, build the
pointwise ratio `L1 = (P + y·W + z)/(P + (z + y·X))` over the wiring domain,
interpolate and commit it, prove its domain product is 1, derive the second
quotient `l2_q` of `L1·den - num` by the vanishing polynomial (a coset-FFT
computation in the source, embedded as the exact division), commit it, draw
`x` and open `l2_q`, `W`, `L1`, `P` at `x`.  The `Evaluations` pointwise
arithmetic of the source is written as maps over the domain indices. -/
def prove_wiring (pcs : PCS F C Pf) (chal : List (FSEvent C) → F)
    (p : List F) (pp : PubParams F C) (dom : Domain F) (ts : FS C) :
    WiringProof C (F × Pf) × FS C :=
  let y := FS.challenge chal ts
  let ts1 := ts.afterDraw
  let z := FS.challenge chal ts1
  let ts2 := ts1.afterDraw
  let k := dom.size
  let g := dom.group_gen
  let numEvals := (List.range k).map fun i =>
    Poly.eval p (g ^ i) + y * Poly.eval pp.w (g ^ i) + z
  let denEvals := (List.range k).map fun i =>
    Poly.eval p (g ^ i) + (z + y * g ^ i)
  let l1Evals := (List.range k).map fun i => numEvals.getD i 0 / denEvals.getD i 0
  let l1 := idft k g l1Evals
  let l1LC := labeledCmt pcs "l1" none l1
  let ts3 := ts2.absorb l1LC
  let prodRes := prove_unit_product pcs chal l1 dom ts3
  let num1 := idft k g numEvals
  let den1 := idft k g denEvals
  let l2q := (Poly.divMod (Poly.sub (Poly.mul l1 den1) num1) (Poly.vanishing k)).1
  let l2qLC := labeledCmt pcs "l2_q" none l2q
  let ts4 := (prodRes.2).absorb l2qLC
  let x := FS.challenge chal ts4
  let ts5 := ts4.afterDraw
  ({ l1_cmt := l1LC.cmt
     l1_prod_pf := prodRes.1
     l2_q_cmt := l2qLC.cmt
     p_x_open := evalOpen pcs p x
     w_x_open := evalOpen pcs pp.w x
     l1_x_open := evalOpen pcs l1 x
     l2_q_x_open := evalOpen pcs l2q x }, ts5)

/-- `Prover::prove_public` (`lib.rs` lines 244-275): interpolate `v` through
the wiring-domain points of the public indices and the evaluations of the
witness `p` itself at those points, divide `p - v` by the vanishing polynomial
of the input points — the remainder is bound to `_r` and ignored — commit the
quotient, draw `x`, open `q` and `p` at `x`.  The trailing identity check
models the `debug_assert_eq!` on line 269 (debug builds only). -/
def prove_public (pcs : PCS F C Pf) (chal : List (FSEvent C) → F)
    (p : List F) (circ : CircuitLayout F) (ts : FS C) :
    Option (PublicProof C (F × Pf) × FS C) :=
  let points := circ.public_indices.map fun ni =>
    (circ.domains.wires.element ni.2, Poly.eval p (circ.domains.wires.element ni.2))
  let v := interpolate points
  let z := circ.vanishing_poly_on_inputs
  let q := (Poly.divMod (Poly.sub p v) z).1
  let qLC := labeledCmt pcs "pub_q" none q
  let ts1 := ts.absorb qLC
  let x := FS.challenge chal ts1
  let ts2 := ts1.afterDraw
  let qOpen := evalOpen pcs q x
  let pOpen := evalOpen pcs p x
  if pOpen.1 - Poly.eval v x = qOpen.1 * Poly.eval z x then
    some ({ q_cmt := qLC.cmt, q_open := qOpen, p_open := pOpen }, ts2)
  else none

/-- The dividend `prove_gates` divides by the gate-domain vanishing
polynomial (`lib.rs` lines 288-290):
`d = s·(p + p(wX)) + (s·(-1) + 1)·(p·p(wX)) - p(w²X)`. -/
def gateDividend (s p : List F) (w : F) : List F :=
  Poly.sub
    (Poly.addPad (Poly.mul s (Poly.addPad p (Poly.shiftScale w p)))
      (Poly.mul (Poly.addPad (Poly.smul (-1) s) [1])
        (Poly.mul p (Poly.shiftScale w p))))
    (Poly.shiftScale (w * w) p)

/-- `Prover::prove_gates` (`lib.rs` lines 277-317): with `w` the wiring-domain
generator, form the dividend `gateDividend`, divide by the gate-domain
vanishing polynomial, commit the quotient, draw `x`, open `s` (from the
public parameters), `p`, `q` at `x` and `p` at `w·x`, `w²·x`.
The final identity check is the source's unconditional `assert_eq!` on
line 304: a witness violating it aborts the prover. -/
def prove_gates (pcs : PCS F C Pf) (chal : List (FSEvent C) → F)
    (p : List F) (circ : CircuitLayout F) (pp : PubParams F C) (ts : FS C) :
    Option (GateProof C (F × Pf) × FS C) :=
  let w := circ.domains.wires.group_gen
  let d := gateDividend circ.s p w
  let q := (Poly.divMod d (Poly.vanishing circ.domains.gates.size)).1
  let qLC := labeledCmt pcs "gates_q" none q
  let ts1 := ts.absorb qLC
  let x := FS.challenge chal ts1
  let ts2 := ts1.afterDraw
  let sOpen := evalOpen pcs pp.s x
  let pOpen := evalOpen pcs p x
  let qOpen := evalOpen pcs q x
  let pwOpen := evalOpen pcs p (w * x)
  let pwwOpen := evalOpen pcs p (w * w * x)
  if sOpen.1 * (pOpen.1 + pwOpen.1) + (1 - sOpen.1) * pOpen.1 * pwOpen.1 - pwwOpen.1
      = qOpen.1 * (x ^ circ.domains.gates.size - 1) then
    some ({ q_cmt := qLC.cmt, s_open := sOpen, p_open := pOpen, q_open := qOpen
            p_w_open := pwOpen, p_w2_open := pwwOpen }, ts2)
  else none

/-- The state of `Prover::prove` after the `P` commitment and the public and
gate sub-arguments, just before the wiring sub-argument. -/
structure ProveStage (F C Pf : Type) where
  pLC : LCmt C
  pl : List F
  pub : PublicProof C (F × Pf)
  gates : GateProof C (F × Pf)
  ts : FS C

/-- `Prover::prove` up to and including `prove_gates` (`lib.rs` lines
371-388): require `circ.p` present (the `assert!` at entry), commit `P` with
degree bound `n_wires - 1 = 3·n_gates - 1`, then run the public and gate
sub-arguments on the shared transcript. -/
def prove_stage (pcs : PCS F C Pf) (chal : List (FSEvent C) → F)
    (circ : CircuitLayout F) (pp : PubParams F C) (ts : FS C) :
    Option (ProveStage F C Pf) :=
  match circ.p with
  | none => none
  | some pl =>
    let nGates := circ.domains.gates.size
    let nWires := nGates * 3
    let pLC := labeledCmt pcs "p" (some (nWires - 1)) pl
    let ts1 := ts.absorb pLC
    (prove_public pcs chal pl circ ts1).bind fun pubRes =>
      (prove_gates pcs chal pl circ pp pubRes.2).bind fun gateRes =>
        some { pLC := pLC, pl := pl, pub := pubRes.1, gates := gateRes.1, ts := gateRes.2 }

/-- `Prover::prove` (`lib.rs` lines 371-396): the staged prefix, then the
wiring sub-argument over the wiring domain, assembled into the `Proof`. -/
def prove (pcs : PCS F C Pf) (chal : List (FSEvent C) → F)
    (circ : CircuitLayout F) (pp : PubParams F C) (ts : FS C) :
    Option (Proof F C Pf × FS C) :=
  (prove_stage pcs chal circ pp ts).bind fun st =>
    let wres := prove_wiring pcs chal st.pl pp circ.domains.wires st.ts
    some ({ p_cmt := st.pLC.cmt, wiring := wres.1, gates := st.gates, public := st.pub },
      wres.2)

/-- `Verifier::recv_commit`: label the received commitment and absorb it. -/
def recv_commit (label : String) (c : C) (degree : Option Nat) (ts : FS C) :
    LCmt C × FS C :=
  let lc : LCmt C := { label := label, cmt := c, degree := degree }
  (lc, ts.absorb lc)

/-- `Verifier::check`: check one opening proof through the commitment scheme
and pass the revealed value on; the Bool records whether `PC::check`
accepted. -/
def vcheck (pcs : PCS F C Pf) (lc : LCmt C) (x : F) (opn : F × Pf) : F × Bool :=
  (opn.1, pcs.check lc x opn.1 opn.2)

/-- `Verifier::verify_unit_product` (`lib.rs` lines 412-436): absorb the `t`
and `q` commitments, draw `r`, check the five opening proofs, then require
`t(w·r) - t(r)·f(w·r) = Z(r)·q(r)` and `t(w^(k-1)) = 1` on the revealed
values; acceptance is the conjunction of every check. -/
def verify_unit_product (pcs : PCS F C Pf) (chal : List (FSEvent C) → F)
    (fLC : LCmt C) (pf : ProductProof C (F × Pf)) (dom : Domain F) (ts : FS C) :
    Bool × FS C :=
  let k := dom.size
  let w := dom.element 1
  let tRC := recv_commit "t" pf.t_cmt none ts
  let qRC := recv_commit "q" pf.q_cmt none tRC.2
  let r := FS.challenge chal qRC.2
  let ts1 := (qRC.2).afterDraw
  let fwr := vcheck pcs fLC (w * r) pf.f_wr_open
  let qr := vcheck pcs qRC.1 r pf.q_r_open
  let tr := vcheck pcs tRC.1 r pf.t_r_open
  let twr := vcheck pcs tRC.1 (w * r) pf.t_wr_open
  let twk := vcheck pcs tRC.1 (dom.element (k - 1)) pf.t_wk_open
  ((fwr.2 && qr.2 && tr.2 && twr.2 && twk.2)
      && decide (twr.1 - tr.1 * fwr.1 = (r ^ k - 1) * qr.1)
      && decide (twk.1 = 1), ts1)

/-- `Verifier::verify_public` (`lib.rs` lines 488-502): absorb the quotient
commitment, draw `x`, check the `p` and `q` openings, rebuild `v` from the
declared public map and require `p(x) - v(x) = q(x)·z(x)`. -/
def verify_public (pcs : PCS F C Pf) (chal : List (FSEvent C) → F)
    (circ : CircuitLayout F) (pLC : LCmt C) (pf : PublicProof C (F × Pf))
    (public : List (String × F)) (ts : FS C) : Bool × FS C :=
  let qRC := recv_commit "pub_q" pf.q_cmt none ts
  let x := FS.challenge chal qRC.2
  let ts1 := (qRC.2).afterDraw
  let pV := vcheck pcs pLC x pf.p_open
  let qV := vcheck pcs qRC.1 x pf.q_open
  let z := circ.vanishing_poly_on_inputs
  let v := circ.inputs_poly public
  ((pV.2 && qV.2)
      && decide (pV.1 - Poly.eval v x = qV.1 * Poly.eval z x), ts1)

/-- `Verifier::verify_gates` (`lib.rs` lines 504-523): absorb the quotient
commitment, draw `x`, check the five openings (`s`, `q`, `p` at `x`, `p` at
`x·w` and `x·w·w`) and require the gate identity on the revealed values. -/
def verify_gates (pcs : PCS F C Pf) (chal : List (FSEvent C) → F)
    (pLC : LCmt C) (circ : CircuitLayout F) (vp : VerifierParams C)
    (pf : GateProof C (F × Pf)) (ts : FS C) : Bool × FS C :=
  let qRC := recv_commit "gates_q" pf.q_cmt none ts
  let x := FS.challenge chal qRC.2
  let ts1 := (qRC.2).afterDraw
  let w := circ.domains.wires.group_gen
  let sV := vcheck pcs vp.s_cmt x pf.s_open
  let qV := vcheck pcs qRC.1 x pf.q_open
  let pV := vcheck pcs pLC x pf.p_open
  let pwV := vcheck pcs pLC (x * w) pf.p_w_open
  let pwwV := vcheck pcs pLC (x * w * w) pf.p_w2_open
  ((sV.2 && qV.2 && pV.2 && pwV.2 && pwwV.2)
      && decide (sV.1 * (pV.1 + pwV.1) + (1 - sV.1) * pV.1 * pwV.1 - pwwV.1
          = qV.1 * (x ^ circ.domains.gates.size - 1)), ts1)

/-- `Verifier::verify_wiring` (`lib.rs` lines 524-546): draw `y` and `z`,
absorb the `L1` commitment, delegate the embedded `ProductProof` to
`verify_unit_product`, absorb the `l2_q` commitment, draw `x`, check the four
openings and require
`(p(x) + y·x + z)·L1(x) - (p(x) + y·W(x) + z) = l2_q(x)·Z(x)`. -/
def verify_wiring (pcs : PCS F C Pf) (chal : List (FSEvent C) → F)
    (pLC : LCmt C) (vp : VerifierParams C) (dom : Domain F)
    (pf : WiringProof C (F × Pf)) (ts : FS C) : Bool × FS C :=
  let y := FS.challenge chal ts
  let ts1 := ts.afterDraw
  let z := FS.challenge chal ts1
  let ts2 := ts1.afterDraw
  let l1RC := recv_commit "l1" pf.l1_cmt none ts2
  let prodRes := verify_unit_product pcs chal l1RC.1 pf.l1_prod_pf dom l1RC.2
  let l2qRC := recv_commit "l2_q" pf.l2_q_cmt none prodRes.2
  let x := FS.challenge chal l2qRC.2
  let ts3 := (l2qRC.2).afterDraw
  let l2qV := vcheck pcs l2qRC.1 x pf.l2_q_x_open
  let wV := vcheck pcs vp.w_cmt x pf.w_x_open
  let l1V := vcheck pcs l1RC.1 x pf.l1_x_open
  let pV := vcheck pcs pLC x pf.p_x_open
  ((prodRes.1 && l2qV.2 && wV.2 && l1V.2 && pV.2)
      && decide ((pV.1 + y * x + z) * l1V.1 - (pV.1 + y * wV.1 + z)
          = l2qV.1 * (x ^ dom.size - 1)), ts3)

/-- `Verifier::verify` (`lib.rs` lines 472-486): require `circ.p` absent (the
`assert!` at entry), receive the `P` commitment with degree bound
`3·n_gates - 1`, then replay the public, gate and wiring verifications in that
order; acceptance is their conjunction. -/
def verify (pcs : PCS F C Pf) (chal : List (FSEvent C) → F)
    (circ : CircuitLayout F) (pf : Proof F C Pf) (public : List (String × F))
    (vp : VerifierParams C) (ts : FS C) : Option (Bool × FS C) :=
  match circ.p with
  | some _ => none
  | none =>
    let nWires := circ.domains.gates.size * 3
    let pRC := recv_commit "p" pf.p_cmt (some (nWires - 1)) ts
    let r1 := verify_public pcs chal circ pRC.1 pf.public public pRC.2
    let r2 := verify_gates pcs chal pRC.1 circ vp pf.gates r1.2
    let r3 := verify_wiring pcs chal pRC.1 vp circ.domains.wires pf.wiring r2.2
    some (r1.1 && r2.1 && r3.1, r3.2)

/-- The sequence of challenges a transcript log determines: the value of
`chal` at every prefix that precedes a draw event. -/
def challengeSeq (chal : List (FSEvent C) → F) :
    List (FSEvent C) → List (FSEvent C) → List F
  | _, [] => []
  | pre, FSEvent.draw :: rest => chal pre :: challengeSeq chal (pre ++ [FSEvent.draw]) rest
  | pre, FSEvent.absorb lc :: rest => challengeSeq chal (pre ++ [FSEvent.absorb lc]) rest

/-- `f.coeffs.len() - 1` as Rust `usize` arithmetic computes it (the index of
the debug assertion on `lib.rs` line 114; subtraction wraps modulo `2^64`). -/
def usizeSubOne (n : Nat) : Nat := (n + (2 ^ 64 - 1)) % 2 ^ 64

/-- The table index `prove_unit_product` reads for the total-product check. -/
def unitProductCheckIndex (fLen : Nat) : Nat := usizeSubOne fLen

/-- A small prime field for concrete protocol runs: `Fin 5` with the field of
five elements.  The inverse is given structurally (`a⁻¹ = a³`, Fermat) so that
concrete protocol runs evaluate inside the kernel. -/
abbrev F5 : Type := Fin 5

instance : Field F5 :=
  { (inferInstance : CommRing F5) with
    inv := fun a => a * a * a
    div := fun a b => a * (b * b * b)
    div_eq_mul_inv := fun _ _ => rfl
    exists_pair_ne := ⟨0, 1, by decide⟩
    mul_inv_cancel := by decide
    inv_zero := by decide
    nnqsmul := _
    qsmul := _ }

/-- A transparent commitment scheme for concrete runs: a commitment records
the degree bound and the coefficient list, and checking recomputes the
evaluation.  It satisfies the completeness contract of the abstract scheme. -/
def pcsW : PCS F5 (Option Nat × List F5) Unit where
  commit := fun b p => (b, p)
  openAt := fun _ _ => ()
  check := fun lc x v _ => decide (Poly.eval lc.cmt.2 x = v)

/-- A concrete constant challenge function for concrete runs. -/
def chalW : List (FSEvent (Option Nat × List F5)) → F5 := fun _ => 0

/-- A satisfiable circuit layout for concrete runs: constant witness `P = 1`,
selector `0` (multiplication gates), wiring polynomial `X`, a gate domain of
size 1 and the wire domain `{1, 4}` of size 2 over `F5` (4 is a primitive
square root of unity mod 5). -/
def circW : CircuitLayout F5 where
  p := some [1]
  s := [0]
  w := [0, 1]
  domains := { gates := { size := 1, group_gen := 1 }
               wires := { size := 2, group_gen := 4 } }
  public_indices := [("out", 0)]

/-- The declared public map matching `circW`'s witness (`P(1) = 1`). -/
def publicW : List (String × F5) := [("out", 1)]

/-- `circW` without its witness, as the verifier receives it. -/
def circWV : CircuitLayout F5 := { circW with p := none }

/-- A circuit layout whose witness (`P = 2`) disagrees with the declared
public map `publicC6` at the public point `1`. -/
def circC6 : CircuitLayout F5 := { circW with p := some [2] }

/-- A declared public map that the witness of `circC6` does not satisfy. -/
def publicC6 : List (String × F5) := [("out", 1)]

/-- A syntactically well-formed (not necessarily valid) proof object over the
concrete commitment scheme, for exercising entry preconditions. -/
def pfW : Proof F5 (Option Nat × List F5) Unit where
  p_cmt := (none, [])
  wiring :=
    { l1_cmt := (none, [])
      l1_prod_pf :=
        { t_cmt := (none, []), q_cmt := (none, []), t_wk_open := (0, ())
          t_r_open := (0, ()), t_wr_open := (0, ()), f_wr_open := (0, ())
          q_r_open := (0, ()) }
      l2_q_cmt := (none, []), p_x_open := (0, ()), w_x_open := (0, ())
      l1_x_open := (0, ()), l2_q_x_open := (0, ()) }
  gates :=
    { q_cmt := (none, []), s_open := (0, ()), q_open := (0, ()), p_open := (1, ())
      p_w_open := (1, ()), p_w2_open := (1, ()) }
  public := { q_cmt := (none, []), q_open := (0, ()), p_open := (0, ()) }

namespace Poly

theorem eval_nil (x : F) : eval ([] : List F) x = 0 := rfl

theorem eval_cons (c : F) (t : List F) (x : F) :
    eval (c :: t) x = c + x * eval t x := rfl

theorem eval_addPad (p q : List F) (x : F) :
    eval (addPad p q) x = eval p x + eval q x := by
  induction p generalizing q with
  | nil => simp [addPad, eval_nil]
  | cons a p ih =>
    cases q with
    | nil => simp [addPad, eval_nil]
    | cons b q =>
      simp only [addPad, eval_cons, ih]
      ring

theorem eval_neg (p : List F) (x : F) : eval (neg p) x = -eval p x := by
  induction p with
  | nil => simp [neg, eval_nil]
  | cons a p ih =>
    simp only [neg, List.map_cons, eval_cons] at *
    rw [ih]
    ring

theorem eval_sub (p q : List F) (x : F) :
    eval (sub p q) x = eval p x - eval q x := by
  rw [sub, eval_addPad, eval_neg]
  ring

theorem eval_smul (c : F) (p : List F) (x : F) :
    eval (smul c p) x = c * eval p x := by
  induction p with
  | nil => simp [smul, eval_nil]
  | cons a p ih =>
    simp only [smul, List.map_cons, eval_cons] at *
    rw [ih]
    ring

theorem eval_mul (p q : List F) (x : F) :
    eval (mul p q) x = eval p x * eval q x := by
  induction p with
  | nil => simp [mul, eval_nil]
  | cons a p ih =>
    simp only [mul, eval_addPad, eval_smul, eval_cons, ih]
    ring

theorem eval_shiftScaleAux (w acc : F) (l : List F) (x : F) :
    eval (shiftScaleAux w acc l) x = acc * eval l (w * x) := by
  induction l generalizing acc with
  | nil => simp [shiftScaleAux, eval_nil]
  | cons c t ih =>
    simp only [shiftScaleAux, eval_cons, ih]
    ring

theorem eval_shiftScale (w : F) (l : List F) (x : F) :
    eval (shiftScale w l) x = eval l (w * x) := by
  rw [shiftScale, eval_shiftScaleAux, one_mul]

theorem eval_replicate_zero_append (k : Nat) (l : List F) (x : F) :
    eval (List.replicate k 0 ++ l) x = x ^ k * eval l x := by
  induction k with
  | zero => simp
  | succ k ih =>
    simp only [List.replicate_succ, List.cons_append, eval_cons, ih]
    ring

theorem eval_vanishing (k : Nat) (x : F) : eval (vanishing k) x = x ^ k - 1 := by
  rw [vanishing, eval_addPad, eval_replicate_zero_append]
  simp [eval_cons, eval_nil]
  ring

theorem addPad_length (p q : List F) :
    (addPad p q).length = max p.length q.length := by
  induction p generalizing q with
  | nil => simp [addPad]
  | cons a p ih =>
    cases q with
    | nil => simp [addPad]
    | cons b q =>
      simp only [addPad, List.length_cons, ih]
      omega

theorem neg_length (p : List F) : (neg p).length = p.length := by
  simp [neg]

theorem sub_length (p q : List F) :
    (sub p q).length = max p.length q.length := by
  rw [sub, addPad_length, neg_length]

theorem smul_length (c : F) (p : List F) : (smul c p).length = p.length := by
  simp [smul]

theorem mul_length (p q : List F) (hp : p ≠ []) (hq : q ≠ []) :
    (mul p q).length = p.length + q.length - 1 := by
  induction p with
  | nil => simp at hp
  | cons a p ih =>
    cases p with
    | nil =>
      have hq1 : 0 < q.length := List.length_pos.mpr hq
      simp only [mul, addPad_length, smul_length, List.length_cons, List.length_nil]
      omega
    | cons a2 p2 =>
      have hq1 : 0 < q.length := List.length_pos.mpr hq
      rw [mul, addPad_length, smul_length]
      rw [List.length_cons, ih (by simp)]
      simp only [List.length_cons]
      omega

theorem shiftScaleAux_length (w acc : F) (l : List F) :
    (shiftScaleAux w acc l).length = l.length := by
  induction l generalizing acc with
  | nil => rfl
  | cons c t ih => simp [shiftScaleAux, ih]

theorem shiftScale_length (w : F) (l : List F) :
    (shiftScale w l).length = l.length := shiftScaleAux_length w 1 l

theorem synthDiv_length (l : List F) (x0 : F) :
    (synthDiv l x0).length = l.length - 1 := by
  induction l with
  | nil => rfl
  | cons c t ih =>
    rw [synthDiv, addPad_length, smul_length, ih]
    simp only [List.length_cons]
    omega

theorem eval_synthDiv (l : List F) (x0 x : F) :
    eval l x = (x - x0) * eval (synthDiv l x0) x + eval l x0 := by
  induction l with
  | nil => simp [synthDiv, eval_nil]
  | cons c t ih =>
    rw [synthDiv, eval_cons, eval_cons, eval_addPad, eval_smul, ih]
    ring

theorem smul_cons (c a : F) (t : List F) : smul c (a :: t) = (c * a) :: smul c t := rfl

theorem trim_length_le (l : List F) : (trim l).length ≤ l.length := by
  induction l with
  | nil => simp [trim]
  | cons a t ih =>
    rw [trim]
    cases h : trim t with
    | nil =>
      by_cases ha : a = 0 <;> simp [ha]
    | cons b r =>
      rw [h] at ih
      simp only [List.length_cons] at ih ⊢
      omega

theorem eval_of_trim_nil (l : List F) (h : trim l = []) (x : F) : eval l x = 0 := by
  induction l with
  | nil => rfl
  | cons a t ih =>
    rw [trim] at h
    cases ht : trim t with
    | nil =>
      rw [ht] at h
      by_cases ha : a = 0
      · rw [eval_cons, ih ht, ha]
        ring
      · simp [ha] at h
    | cons b r => simp [ht] at h

theorem eval_trim (l : List F) (x : F) : eval (trim l) x = eval l x := by
  induction l with
  | nil => rfl
  | cons a t ih =>
    rw [trim]
    cases ht : trim t with
    | nil =>
      have ht0 : eval t x = 0 := eval_of_trim_nil t ht x
      by_cases ha : a = 0
      · rw [if_pos ha, eval_nil, eval_cons, ht0, ha]
        ring
      · rw [if_neg ha, eval_cons, eval_cons, eval_nil, ht0]
    | cons b r =>
      rw [ht] at ih
      simp only [eval_cons] at ih ⊢
      rw [ih]

theorem lead_eq_getLast? (l : List F) : lead l = (l.getLast?).getD 0 := by
  rw [lead, List.getLastD_eq_getLast?]

theorem lead_cons (a : F) (t : List F) (h : t ≠ []) : lead (a :: t) = lead t := by
  rw [lead_eq_getLast?, lead_eq_getLast?]
  cases t with
  | nil => simp at h
  | cons b r => rw [List.getLast?_cons_cons]

theorem lead_append (l1 l2 : List F) (h : l2 ≠ []) : lead (l1 ++ l2) = lead l2 := by
  rw [lead_eq_getLast?, lead_eq_getLast?, List.getLast?_append_of_ne_nil l1 h]

theorem lead_smul (c : F) (l : List F) : lead (smul c l) = c * lead l := by
  induction l with
  | nil => simp [smul, lead]
  | cons a t ih =>
    cases ht : t with
    | nil => simp [smul, lead]
    | cons b r =>
      rw [← ht]
      have hne : t ≠ [] := by rw [ht]; simp
      have hsne : smul c t ≠ [] := by
        intro hcon
        have := congrArg List.length hcon
        rw [smul_length] at this
        simp [ht] at this
      rw [smul_cons, lead_cons _ _ hsne, lead_cons _ _ hne]
      exact ih

theorem lead_neg (l : List F) : lead (neg l) = -lead l := by
  have : neg l = smul (-1) l := by
    simp [neg, smul]
  rw [this, lead_smul]
  ring

theorem lead_addPad_eq_length (p q : List F) (h : p.length = q.length) :
    lead (addPad p q) = lead p + lead q := by
  induction p generalizing q with
  | nil =>
    cases q with
    | nil => simp [addPad, lead]
    | cons b r => simp at h
  | cons a p ih =>
    cases q with
    | nil => simp at h
    | cons b q =>
      have h2 : p.length = q.length := by
        simp only [List.length_cons] at h
        omega
      rw [addPad]
      cases hp : p with
      | nil =>
        have hq : q = [] := by
          rw [hp] at h2
          exact List.eq_nil_of_length_eq_zero h2.symm
        simp [hp, hq, addPad, lead]
      | cons a2 p2 =>
        rw [← hp]
        have hpne : p ≠ [] := by rw [hp]; simp
        have hqne : q ≠ [] := by
          intro hcon
          rw [hcon, hp] at h2
          simp at h2
        have hane : addPad p q ≠ [] := by
          intro hcon
          have hlen := congrArg List.length hcon
          rw [addPad_length] at hlen
          have := List.length_pos.mpr hpne
          simp only [List.length_nil] at hlen
          omega
        rw [lead_cons _ _ hane, lead_cons _ _ hpne, lead_cons _ _ hqne]
        exact ih q h2

theorem lead_trim_ne_zero (l : List F) (h : trim l ≠ []) : lead (trim l) ≠ 0 := by
  induction l with
  | nil => simp [trim] at h
  | cons a t ih =>
    rw [trim] at h ⊢
    cases ht : trim t with
    | nil =>
      rw [ht] at h
      by_cases ha : a = 0
      · simp [ha] at h
      · simp [ha, lead]
    | cons b r =>
      rw [ht] at ih
      have := ih (by simp)
      rw [lead_cons _ _ (by simp)]
      exact this

theorem trim_eq_self (l : List F) (h2 : lead l ≠ 0) : trim l = l := by
  induction l with
  | nil => rfl
  | cons a t ih =>
    rw [trim]
    cases ht2 : t with
    | nil =>
      subst ht2
      have ha : a ≠ 0 := by simpa [lead] using h2
      simp [trim, if_neg ha]
    | cons b r =>
      rw [← ht2]
      have htne : t ≠ [] := by rw [ht2]; simp
      rw [lead_cons _ _ htne] at h2
      rw [ih h2]
      rw [ht2]

theorem trim_length_lt (l : List F) (h : l ≠ []) (h2 : lead l = 0) :
    (trim l).length < l.length := by
  induction l with
  | nil => simp at h
  | cons a t ih =>
    rw [trim]
    cases ht : trim t with
    | nil =>
      by_cases ha : a = 0 <;> simp only [if_pos, if_neg, ha, List.length_nil,
        List.length_cons, List.length_singleton, ite_true, ite_false]
      · omega
      · have := trim_length_le t
        cases t with
        | nil => simp [lead] at h2; exact absurd h2 ha
        | cons b r => simp only [List.length_cons]; omega
    | cons b r =>
      cases htt : t with
      | nil => rw [htt] at ht; simp [trim] at ht
      | cons c s =>
        rw [← htt]
        have htne : t ≠ [] := by rw [htt]; simp
        rw [lead_cons _ _ htne] at h2
        have hlt := ih htne h2
        rw [ht] at hlt
        simp only [List.length_cons] at hlt ⊢
        omega

theorem divModAux_eval (d : List F) (fuel : Nat) :
    ∀ (r : List F) (x : F),
      eval r x = eval (divModAux fuel r d).1 x * eval d x + eval (divModAux fuel r d).2 x := by
  induction fuel with
  | zero =>
    intro r x
    simp [divModAux, eval_nil, eval_trim]
  | succ fuel ih =>
    intro r x
    rw [divModAux]
    by_cases h : (trim r).length < (trim d).length
    · simp only [if_pos h, eval_nil, eval_trim]
      ring
    · simp only [if_neg h]
      rw [eval_addPad, eval_replicate_zero_append, eval_cons, eval_nil]
      have hX := ih (sub (trim r)
        (List.replicate ((trim r).length - (trim d).length) 0 ++
          smul (lead (trim r) / lead (trim d)) (trim d))) x
      rw [eval_sub, eval_replicate_zero_append, eval_smul, eval_trim, eval_trim] at hX
      linear_combination hX

theorem divModAux_rem_length (d : List F) (hd : trim d ≠ []) (fuel : Nat) :
    ∀ r : List F, (trim r).length ≤ fuel →
      ((divModAux fuel r d).2).length < (trim d).length := by
  induction fuel with
  | zero =>
    intro r hr
    have hnil : trim r = [] := List.eq_nil_of_length_eq_zero (Nat.le_zero.mp hr)
    simp only [divModAux, hnil, List.length_nil]
    exact List.length_pos.mpr hd
  | succ fuel ih =>
    intro r hr
    rw [divModAux]
    by_cases h : (trim r).length < (trim d).length
    · simpa only [if_pos h] using h
    · simp only [if_neg h]
      apply ih
      set r1 := trim r with hr1
      set dt := trim d with hdt
      have hge : dt.length ≤ r1.length := Nat.le_of_not_lt h
      have hdt1 : 0 < dt.length := List.length_pos.mpr hd
      have hr1ne : r1 ≠ [] := by
        intro hcon
        have hzero : r1.length = 0 := by rw [hcon]; rfl
        omega
      have hlen2 : (List.replicate (r1.length - dt.length) 0 ++
          smul (lead r1 / lead dt) dt).length = r1.length := by
        rw [List.length_append, List.length_replicate, smul_length]
        omega
      have hr2len : (sub r1 (List.replicate (r1.length - dt.length) 0 ++
          smul (lead r1 / lead dt) dt)).length = r1.length := by
        rw [sub_length, hlen2]
        omega
      have hsmulne : smul (lead r1 / lead dt) dt ≠ [] := by
        intro hcon
        have h0 := congrArg List.length hcon
        rw [smul_length, List.length_nil] at h0
        omega
      have hlead2 : lead (List.replicate (r1.length - dt.length) 0 ++
          smul (lead r1 / lead dt) dt) = lead r1 / lead dt * lead dt := by
        rw [lead_append _ _ hsmulne, lead_smul]
      have hleadr2 : lead (sub r1 (List.replicate (r1.length - dt.length) 0 ++
          smul (lead r1 / lead dt) dt)) = 0 := by
        rw [sub, lead_addPad_eq_length _ _ (by rw [neg_length, hlen2]), lead_neg, hlead2]
        rw [div_mul_cancel₀ _ (lead_trim_ne_zero d hd)]
        ring
      have hr2ne : sub r1 (List.replicate (r1.length - dt.length) 0 ++
          smul (lead r1 / lead dt) dt) ≠ [] := by
        intro hcon
        have h0 := congrArg List.length hcon
        rw [hr2len, List.length_nil] at h0
        exact hr1ne (List.eq_nil_of_length_eq_zero h0)
      have := trim_length_lt _ hr2ne hleadr2
      rw [hr2len] at this
      omega

theorem divMod_eval (p d : List F) (x : F) :
    eval p x = eval (divMod p d).1 x * eval d x + eval (divMod p d).2 x :=
  divModAux_eval d p.length p x

theorem divMod_rem_length (p d : List F) (hd : trim d ≠ []) :
    ((divMod p d).2).length < (trim d).length :=
  divModAux_rem_length d hd p.length p (le_trans (trim_length_le p) (le_refl _))

theorem eval_zero_of_roots :
    ∀ (pts : List F) (l : List F), pts.Pairwise (fun a b => a ≠ b) →
      l.length ≤ pts.length → (∀ p ∈ pts, eval l p = 0) → ∀ x, eval l x = 0 := by
  intro pts
  induction pts with
  | nil =>
    intro l _ hlen _ x
    have : l = [] := List.eq_nil_of_length_eq_zero (Nat.le_zero.mp hlen)
    simp [this, eval_nil]
  | cons p0 rest ih =>
    intro l hp hlen hz x
    have h00 : eval l p0 = 0 := hz p0 (List.mem_cons_self _ _)
    have hq : ∀ pt ∈ rest, eval (synthDiv l p0) pt = 0 := by
      intro pt hpt
      have h0 : eval l pt = 0 := hz pt (List.mem_cons_of_mem _ hpt)
      have hne : p0 ≠ pt := (List.pairwise_cons.mp hp).1 pt hpt
      have heq := eval_synthDiv l p0 pt
      rw [h0, h00, add_zero] at heq
      rcases mul_eq_zero.mp heq.symm with hc | hc
      · exact absurd (sub_eq_zero.mp hc) (Ne.symm hne)
      · exact hc
    have hqlen : (synthDiv l p0).length ≤ rest.length := by
      rw [synthDiv_length]
      simp only [List.length_cons] at hlen
      omega
    have hq0 : ∀ y, eval (synthDiv l p0) y = 0 :=
      ih (synthDiv l p0) (List.pairwise_cons.mp hp).2 hqlen hq
    rw [eval_synthDiv l p0 x, hq0, h00]
    ring

theorem eval_eq_of_agree (pts l1 l2 : List F) (hp : pts.Pairwise (fun a b => a ≠ b))
    (h1 : l1.length ≤ pts.length) (h2 : l2.length ≤ pts.length)
    (hag : ∀ p ∈ pts, eval l1 p = eval l2 p) : ∀ x, eval l1 x = eval l2 x := by
  intro x
  have hz := eval_zero_of_roots pts (sub l1 l2) hp
    (by rw [sub_length]; omega)
    (fun p hp2 => by rw [eval_sub, hag p hp2]; ring) x
  rw [eval_sub] at hz
  exact sub_eq_zero.mp hz

theorem eval_eq_sum_getD (l : List F) (x : F) :
    eval l x = ∑ i in Finset.range l.length, l.getD i 0 * x ^ i := by
  induction l with
  | nil => simp [eval_nil]
  | cons c t ih =>
    rw [eval_cons, ih, List.length_cons, Finset.sum_range_succ']
    simp only [List.getD_cons_succ, List.getD_cons_zero, pow_zero, mul_one, pow_succ]
    rw [Finset.mul_sum]
    rw [add_comm]
    congr 1
    refine Finset.sum_congr rfl fun i _ => by ring

end Poly

theorem list_range_map_sum (k : Nat) (f : Nat → F) :
    ((List.range k).map f).sum = ∑ i in Finset.range k, f i := by
  induction k with
  | zero => simp
  | succ k ih =>
    rw [List.range_succ, List.map_append, List.sum_append, Finset.sum_range_succ, ih]
    simp

theorem list_range_map_prod (k : Nat) (f : Nat → F) :
    ((List.range k).map f).prod = ∏ i in Finset.range k, f i := by
  induction k with
  | zero => simp
  | succ k ih =>
    rw [List.range_succ, List.map_append, List.prod_append, Finset.prod_range_succ, ih]
    simp

theorem getD_map_range (k : Nat) (f : Nat → F) (i : Nat) (h : i < k) :
    ((List.range k).map f).getD i 0 = f i := by
  rw [List.getD_eq_getElem?_getD]
  rw [List.getElem?_map]
  rw [List.getElem?_range h]
  rfl

theorem eval_map_range (k : Nat) (f : Nat → F) (x : F) :
    Poly.eval ((List.range k).map f) x = ∑ j in Finset.range k, f j * x ^ j := by
  rw [Poly.eval_eq_sum_getD, List.length_map, List.length_range]
  exact Finset.sum_congr rfl fun j hj => by
    rw [getD_map_range _ _ _ (Finset.mem_range.mp hj)]

theorem idft_length (k : Nat) (w : F) (e : List F) : (idft k w e).length = k := by
  simp [idft]

theorem sum_pow_eq_zero_of_ne_one (k : Nat) (u : F) (hu : u ^ k = 1) (hne : u ≠ 1) :
    ∑ j in Finset.range k, u ^ j = 0 := by
  rw [geom_sum_eq hne k, hu]
  simp

/-- DFT inversion: `idft` interpolates, i.e. the polynomial it returns
evaluates at the domain point `w ^ a` to the `a`-th input value. -/
theorem eval_idft (k : Nat) (w : F) (hw : IsPrimitiveRoot w k) (hk : (k : F) ≠ 0)
    (e : List F) (a : Nat) (ha : a < k) :
    Poly.eval (idft k w e) (w ^ a) = e.getD a 0 := by
  have hk0 : k ≠ 0 := by
    intro hcon
    rw [hcon] at hk
    simp at hk
  have hw0 : w ≠ 0 := by
    intro hcon
    have h1 := hw.pow_eq_one
    rw [hcon, zero_pow hk0] at h1
    exact zero_ne_one h1
  rw [idft, eval_map_range]
  have hinner : ∀ j ∈ Finset.range k,
      ((k : F)⁻¹ * ((List.range k).map fun i => e.getD i 0 * (w ^ (i * j))⁻¹).sum) * (w ^ a) ^ j
        = (k : F)⁻¹ * ∑ i in Finset.range k, e.getD i 0 * (w ^ a * (w ^ i)⁻¹) ^ j := by
    intro j _
    rw [list_range_map_sum, mul_assoc, Finset.sum_mul]
    congr 1
    refine Finset.sum_congr rfl fun i _ => ?_
    rw [mul_pow, pow_mul, ← inv_pow]
    ring
  rw [Finset.sum_congr rfl hinner, ← Finset.mul_sum, Finset.sum_comm]
  have hterm : ∀ i ∈ Finset.range k,
      (∑ j in Finset.range k, e.getD i 0 * (w ^ a * (w ^ i)⁻¹) ^ j)
        = if i = a then e.getD a 0 * (k : F) else 0 := by
    intro i hi
    rw [← Finset.mul_sum]
    by_cases hia : i = a
    · subst hia
      rw [if_pos rfl, mul_inv_cancel₀ (pow_ne_zero _ hw0)]
      have hsum : (∑ j in Finset.range k, (1 : F) ^ j) = (k : F) := by
        simp
      rw [hsum]
    · rw [if_neg hia]
      have hne1 : w ^ a * (w ^ i)⁻¹ ≠ 1 := by
        intro hcon
        have hpow : w ^ a = w ^ i := by
          field_simp at hcon
          exact hcon
        exact hia (hw.pow_inj ha (Finset.mem_range.mp hi) hpow).symm
      have hpk : (w ^ a * (w ^ i)⁻¹) ^ k = 1 := by
        have h1 : (w ^ a) ^ k = 1 := by
          rw [← pow_mul, mul_comm, pow_mul, hw.pow_eq_one, one_pow]
        have h2 : (w ^ i) ^ k = 1 := by
          rw [← pow_mul, mul_comm, pow_mul, hw.pow_eq_one, one_pow]
        rw [mul_pow, h1, inv_pow, h2, inv_one, mul_one]
      rw [sum_pow_eq_zero_of_ne_one k _ hpk hne1]
      ring
  rw [Finset.sum_congr rfl hterm, Finset.sum_ite_eq' (Finset.range k) a]
  rw [if_pos (Finset.mem_range.mpr ha)]
  rw [mul_comm (e.getD a 0) ((k : F)), ← mul_assoc, inv_mul_cancel₀ hk, one_mul]

theorem evalsOnDomain_length (f : List F) (k : Nat) (w : F) :
    (evalsOnDomain f k w).length = k := by
  simp [evalsOnDomain]

theorem evalsOnDomain_getD (f : List F) (k : Nat) (w : F) (i : Nat) (h : i < k) :
    (evalsOnDomain f k w).getD i 0 = Poly.eval f (w ^ i) :=
  getD_map_range k _ i h

theorem partialProductsAux_length (acc : F) (l : List F) :
    (partialProductsAux acc l).length = l.length := by
  induction l generalizing acc with
  | nil => rfl
  | cons x t ih => simp [partialProductsAux, ih]

theorem partial_products_in_place_length (l : List F) :
    (partial_products_in_place l).length = l.length := by
  cases l with
  | nil => rfl
  | cons x t => simp [partial_products_in_place, partialProductsAux_length]

theorem partialProductsAux_getD (l : List F) :
    ∀ (acc : F) (i : Nat), i < l.length →
      (partialProductsAux acc l).getD i 0 = acc * (l.take (i + 1)).prod := by
  induction l with
  | nil => intro acc i h; simp at h
  | cons x t ih =>
    intro acc i h
    cases i with
    | zero => simp [partialProductsAux]
    | succ i =>
      rw [partialProductsAux, List.getD_cons_succ]
      rw [ih (acc * x) i (by simpa using Nat.lt_of_succ_lt_succ h)]
      rw [List.take_succ_cons, List.prod_cons]
      ring

theorem partial_products_in_place_getD (l : List F) (i : Nat) (h : i < l.length) :
    (partial_products_in_place l).getD i 0 = (l.take (i + 1)).prod := by
  cases l with
  | nil => simp at h
  | cons x t =>
    cases i with
    | zero => simp [partial_products_in_place]
    | succ i =>
      rw [partial_products_in_place, List.getD_cons_succ]
      rw [partialProductsAux_getD t x i (by simpa using Nat.lt_of_succ_lt_succ h)]
      rw [List.take_succ_cons, List.prod_cons]

theorem lagBasis_cons (xi : F) (rest : List F) (xj : F) :
    lagBasis (xi :: rest) xj
      = if xi = xj then lagBasis rest xj
        else Poly.smul (xj - xi)⁻¹
          (Poly.sub (0 :: lagBasis rest xj) (Poly.smul xi (lagBasis rest xj))) := rfl

theorem interpAux_cons (ns : List F) (pt : F × F) (rest : List (F × F)) :
    interpAux ns (pt :: rest)
      = Poly.addPad (interpAux ns rest) (Poly.smul pt.2 (lagBasis ns pt.1)) := rfl

theorem lagBasis_length_le (nodes : List F) (xj : F) :
    (lagBasis nodes xj).length ≤ nodes.length + 1 := by
  induction nodes with
  | nil => simp [lagBasis]
  | cons xi rest ih =>
    rw [lagBasis, List.foldr_cons]
    by_cases h : xi = xj
    · rw [if_pos h]
      exact le_trans ih (by simp)
    · rw [if_neg h, Poly.smul_length, Poly.sub_length, Poly.smul_length]
      rw [lagBasis] at ih
      simp only [List.length_cons]
      omega

theorem lagBasis_length_le_of_mem (nodes : List F) (xj : F) (h : xj ∈ nodes) :
    (lagBasis nodes xj).length ≤ nodes.length := by
  induction nodes with
  | nil => simp at h
  | cons xi rest ih =>
    rw [lagBasis, List.foldr_cons]
    by_cases hx : xi = xj
    · rw [if_pos hx]
      have := lagBasis_length_le rest xj
      rw [lagBasis] at this
      simpa using this
    · rw [if_neg hx, Poly.smul_length, Poly.sub_length, Poly.smul_length]
      have hrest : xj ∈ rest := by
        rcases List.mem_cons.mp h with hc | hc
        · exact absurd hc.symm hx
        · exact hc
      have := ih hrest
      rw [lagBasis] at this
      simp only [List.length_cons]
      omega

theorem eval_lagBasis_self (nodes : List F) (xj : F) :
    Poly.eval (lagBasis nodes xj) xj = 1 := by
  induction nodes with
  | nil => simp [lagBasis, Poly.eval_cons, Poly.eval_nil]
  | cons xi rest ih =>
    rw [lagBasis, List.foldr_cons]
    by_cases h : xi = xj
    · rw [if_pos h]
      exact ih
    · rw [if_neg h, Poly.eval_smul, Poly.eval_sub, Poly.eval_cons, Poly.eval_smul]
      rw [lagBasis] at ih
      rw [ih]
      have hne : xj - xi ≠ 0 := sub_ne_zero.mpr (Ne.symm h)
      field_simp

theorem eval_lagBasis_other (nodes : List F) (xj x' : F) (hmem : x' ∈ nodes)
    (hne : x' ≠ xj) : Poly.eval (lagBasis nodes xj) x' = 0 := by
  induction nodes with
  | nil => simp at hmem
  | cons xi rest ih =>
    rw [lagBasis_cons]
    rcases List.mem_cons.mp hmem with hc | hc
    · subst hc
      rw [if_neg hne]
      rw [Poly.eval_smul, Poly.eval_sub, Poly.eval_cons, Poly.eval_smul]
      ring
    · by_cases h : xi = xj
      · rw [if_pos h]
        exact ih hc
      · rw [if_neg h, Poly.eval_smul, Poly.eval_sub, Poly.eval_cons, Poly.eval_smul]
        rw [ih hc]
        ring

theorem eval_interpAux (ns : List F) (pts : List (F × F)) (x : F) :
    Poly.eval (interpAux ns pts) x
      = (pts.map fun pt => pt.2 * Poly.eval (lagBasis ns pt.1) x).sum := by
  induction pts with
  | nil => simp [interpAux, Poly.eval_nil]
  | cons pt rest ih =>
    rw [interpAux, List.foldr_cons, Poly.eval_addPad, Poly.eval_smul]
    rw [interpAux] at ih
    rw [ih, List.map_cons, List.sum_cons]
    ring

theorem interpAux_length (ns : List F) (pts : List (F × F))
    (h : ∀ pt ∈ pts, pt.1 ∈ ns) : (interpAux ns pts).length ≤ ns.length := by
  induction pts with
  | nil => simp [interpAux]
  | cons pt rest ih =>
    rw [interpAux, List.foldr_cons, Poly.addPad_length, Poly.smul_length]
    have h1 := ih fun pt2 hpt2 => h pt2 (List.mem_cons_of_mem _ hpt2)
    rw [interpAux] at h1
    have h2 := lagBasis_length_le_of_mem ns pt.1 (h pt (List.mem_cons_self _ _))
    omega

theorem interpolate_length (pts : List (F × F)) :
    (interpolate pts).length ≤ pts.length := by
  rw [interpolate]
  have := interpAux_length (pts.map Prod.fst) pts
    (fun pt hpt => List.mem_map_of_mem _ hpt)
  simpa using this

theorem interpAux_eval_zero (ns : List F) (rest : List (F × F)) (xj : F)
    (hns : xj ∈ ns) (hall : ∀ pt ∈ rest, pt.1 ≠ xj) :
    Poly.eval (interpAux ns rest) xj = 0 := by
  induction rest with
  | nil => simp [interpAux, Poly.eval_nil]
  | cons pt rest2 ih =>
    rw [interpAux_cons, Poly.eval_addPad, Poly.eval_smul]
    rw [ih fun pt2 hpt2 => hall pt2 (List.mem_cons_of_mem _ hpt2)]
    rw [eval_lagBasis_other ns pt.1 xj hns (Ne.symm (hall pt (List.mem_cons_self _ _)))]
    ring

theorem interpAux_at_node (ns : List F) :
    ∀ (pts : List (F × F)) (xj yj : F), (xj, yj) ∈ pts → xj ∈ ns →
      (pts.map Prod.fst).Pairwise (fun a b => a ≠ b) →
      Poly.eval (interpAux ns pts) xj = yj := by
  intro pts
  induction pts with
  | nil =>
    intro xj yj h
    simp at h
  | cons pt rest ih =>
    intro xj yj hmem hns hpair
    rw [interpAux_cons, Poly.eval_addPad, Poly.eval_smul]
    rw [List.map_cons, List.pairwise_cons] at hpair
    rcases List.mem_cons.mp hmem with hc | hc
    · have hpt1 : pt.1 = xj := by rw [← hc]
      have hpt2 : pt.2 = yj := by rw [← hc]
      rw [interpAux_eval_zero ns rest xj hns fun pt2 hpt2 => by
        have := hpair.1 pt2.1 (List.mem_map_of_mem _ hpt2)
        rw [hpt1] at this
        exact fun hcon => this hcon.symm]
      rw [hpt1, eval_lagBasis_self, hpt2]
      ring
    · have hne : pt.1 ≠ xj := by
        have := hpair.1 xj (List.mem_map.mpr ⟨(xj, yj), hc, rfl⟩)
        exact this
      rw [ih xj yj hc hns hpair.2]
      rw [eval_lagBasis_other ns pt.1 xj hns (Ne.symm hne)]
      ring

theorem eval_interpolate_at_node (pts : List (F × F))
    (hdist : (pts.map Prod.fst).Pairwise (fun a b => a ≠ b)) :
    ∀ pt ∈ pts, Poly.eval (interpolate pts) pt.1 = pt.2 := by
  intro pt hpt
  rw [interpolate]
  exact interpAux_at_node (pts.map Prod.fst) pts pt.1 pt.2 hpt
    (List.mem_map_of_mem _ hpt) hdist

theorem eval_linear_foldr (nodes : List F) (x : F) :
    Poly.eval (nodes.foldr (fun x0 acc => Poly.sub (0 :: acc) (Poly.smul x0 acc)) [1]) x
      = (nodes.map fun x0 => x - x0).prod := by
  induction nodes with
  | nil => simp [Poly.eval_cons, Poly.eval_nil]
  | cons x0 rest ih =>
    rw [List.foldr_cons, Poly.eval_sub, Poly.eval_cons, Poly.eval_smul, ih]
    rw [List.map_cons, List.prod_cons]
    ring

theorem linear_foldr_length (nodes : List F) :
    (nodes.foldr (fun x0 acc => Poly.sub (0 :: acc) (Poly.smul x0 acc)) [1]).length
      = nodes.length + 1 := by
  induction nodes with
  | nil => simp
  | cons x0 rest ih =>
    rw [List.foldr_cons, Poly.sub_length, Poly.smul_length]
    simp only [List.length_cons, ih]
    omega

theorem lead_addPad_of_lt (p q : List F) (h : q.length < p.length) :
    Poly.lead (Poly.addPad p q) = Poly.lead p := by
  induction p generalizing q with
  | nil => simp at h
  | cons a p ih =>
    cases q with
    | nil => rfl
    | cons b q =>
      simp only [List.length_cons] at h
      have hlt : q.length < p.length := by omega
      have hpne : p ≠ [] := by
        intro hcon
        rw [hcon] at hlt
        simp at hlt
      have hane : Poly.addPad p q ≠ [] := by
        intro hcon
        have h0 := congrArg List.length hcon
        rw [Poly.addPad_length, List.length_nil] at h0
        have := List.length_pos.mpr hpne
        omega
      rw [Poly.addPad, Poly.lead_cons _ _ hane, Poly.lead_cons _ _ hpne]
      exact ih q hlt

theorem linear_foldr_lead (nodes : List F) :
    Poly.lead (nodes.foldr (fun x0 acc => Poly.sub (0 :: acc) (Poly.smul x0 acc)) [1])
      = 1 := by
  induction nodes with
  | nil => rfl
  | cons x0 rest ih =>
    rw [List.foldr_cons, Poly.sub]
    have hacc : (rest.foldr (fun x0 acc => Poly.sub (0 :: acc) (Poly.smul x0 acc)) [1]).length
        = rest.length + 1 := linear_foldr_length rest
    have haccne : rest.foldr (fun x0 acc => Poly.sub (0 :: acc) (Poly.smul x0 acc)) [1] ≠ [] := by
      intro hcon
      have h0 := congrArg List.length hcon
      rw [hacc, List.length_nil] at h0
      omega
    rw [lead_addPad_of_lt _ _ (by
      rw [Poly.neg_length, Poly.smul_length, List.length_cons, hacc]
      omega)]
    rw [Poly.lead_cons _ _ haccne]
    exact ih

/-- Division by a polynomial vanishing exactly on `nodes` is exact when the
dividend also vanishes on `nodes`: the division identity then holds at every
point, not just on the domain. -/
theorem divMod_exact (nodes num d : List F)
    (hlead : Poly.lead d ≠ 0) (hdlen : d.length = nodes.length + 1)
    (hdist : nodes.Pairwise (fun a b => a ≠ b))
    (hnum0 : ∀ x ∈ nodes, Poly.eval num x = 0)
    (hd0 : ∀ x ∈ nodes, Poly.eval d x = 0) :
    ∀ x, Poly.eval num x = Poly.eval (Poly.divMod num d).1 x * Poly.eval d x := by
  have hdne : d ≠ [] := by
    intro hcon
    have h0 := congrArg List.length hcon
    rw [hdlen, List.length_nil] at h0
    omega
  have htrim : Poly.trim d = d := Poly.trim_eq_self d hlead
  have hrem : ∀ y, Poly.eval (Poly.divMod num d).2 y = 0 := by
    apply Poly.eval_zero_of_roots nodes _ hdist
    · have := Poly.divMod_rem_length num d (by rw [htrim]; exact hdne)
      rw [htrim, hdlen] at this
      omega
    · intro pt hpt
      have h2 := Poly.divMod_eval num d pt
      rw [hnum0 pt hpt, hd0 pt hpt, mul_zero, zero_add] at h2
      exact h2.symm
  intro x
  have heval := Poly.divMod_eval num d x
  rw [heval, hrem x, add_zero]

theorem vanishing_length (k : Nat) : (Poly.vanishing k : List F).length = k + 1 := by
  rw [Poly.vanishing, Poly.addPad_length]
  simp

theorem vanishing_lead (k : Nat) (hk : 0 < k) :
    Poly.lead (Poly.vanishing k : List F) = 1 := by
  rw [Poly.vanishing]
  rw [lead_addPad_of_lt _ _ (by simp; omega)]
  rw [Poly.lead_append _ _ (by simp)]
  rfl

/-- The `k` powers of a primitive `k`-th root of unity are pairwise
distinct. -/
theorem pow_nodes_pairwise (k : Nat) (g : F) (hg : IsPrimitiveRoot g k) :
    ((List.range k).map fun i => g ^ i).Pairwise (fun a b => a ≠ b) := by
  rw [List.pairwise_map]
  have hlt : (List.range k).Pairwise (· < ·) := List.pairwise_lt_range k
  refine hlt.imp_of_mem ?_
  intro a b ha hb hab hcon
  have hak : a < k := List.mem_range.mp ha
  have hbk : b < k := List.mem_range.mp hb
  exact Nat.lt_irrefl a (hg.pow_inj hak hbk hcon ▸ hab)

theorem vanishing_eval_at_root_pow (k i : Nat) (g : F) (hg : IsPrimitiveRoot g k) :
    Poly.eval (Poly.vanishing k) (g ^ i) = 0 := by
  rw [Poly.eval_vanishing, ← pow_mul, mul_comm, pow_mul, hg.pow_eq_one, one_pow]
  ring

/-- The partial-product polynomial `t` of `prove_unit_product` evaluates at
the domain point `g ^ j` to the `(j+1)`-st partial product of `f`'s domain
evaluations. -/
theorem t_node_eval (f : List F) (k : Nat) (g : F) (hg : IsPrimitiveRoot g k)
    (hkF : (k : F) ≠ 0) (j : Nat) (hj : j < k) :
    Poly.eval (idft k g (partial_products_in_place (evalsOnDomain f k g))) (g ^ j)
      = ((evalsOnDomain f k g).take (j + 1)).prod := by
  rw [eval_idft k g hg hkF _ j hj]
  exact partial_products_in_place_getD _ j (by rw [evalsOnDomain_length]; exact hj)

/-- `t` at the last domain point is the product of all domain evaluations. -/
theorem t_last_eval (f : List F) (k : Nat) (g : F) (hg : IsPrimitiveRoot g k)
    (hkF : (k : F) ≠ 0) (hk : 0 < k) :
    Poly.eval (idft k g (partial_products_in_place (evalsOnDomain f k g))) (g ^ (k - 1))
      = (evalsOnDomain f k g).prod := by
  rw [t_node_eval f k g hg hkF (k - 1) (by omega)]
  congr 1
  have hk1 : k - 1 + 1 = k := by omega
  rw [hk1]
  exact List.take_of_length_le (by rw [evalsOnDomain_length])

/-- The numerator `t(gX) - f(gX)·t(X)` of the unit-product quotient vanishes
on the whole domain when `f`'s domain evaluations multiply to 1. -/
theorem unit_product_numerator_zero (f : List F) (k : Nat) (g : F)
    (hg : IsPrimitiveRoot g k) (hkF : (k : F) ≠ 0) (hk : 0 < k)
    (hprod : (evalsOnDomain f k g).prod = 1) (i : Nat) (hi : i < k) :
    Poly.eval (Poly.sub
        (Poly.shiftScale g (idft k g (partial_products_in_place (evalsOnDomain f k g))))
        (Poly.mul (Poly.shiftScale g f)
          (idft k g (partial_products_in_place (evalsOnDomain f k g))))) (g ^ i)
      = 0 := by
  rw [Poly.eval_sub, Poly.eval_mul, Poly.eval_shiftScale, Poly.eval_shiftScale]
  have hgsucc : g * g ^ i = g ^ (i + 1) := (pow_succ' g i).symm
  rw [hgsucc]
  by_cases hip : i + 1 < k
  · rw [t_node_eval _ _ _ hg hkF (i + 1) hip, t_node_eval _ _ _ hg hkF i hi]
    rw [List.prod_take_succ _ (i + 1) (by rw [evalsOnDomain_length]; exact hip)]
    have hlen : i + 1 < (evalsOnDomain f k g).length := by
      rw [evalsOnDomain_length]; exact hip
    have he : (evalsOnDomain f k g)[i + 1]
        = Poly.eval f (g ^ (i + 1)) := by
      simp [evalsOnDomain]
    rw [he]
    ring
  · have hik : i + 1 = k := by omega
    have hg1 : g ^ (i + 1) = g ^ 0 := by rw [hik, hg.pow_eq_one, pow_zero]
    rw [hg1, t_node_eval _ _ _ hg hkF 0 hk, t_node_eval _ _ _ hg hkF i hi]
    have hik1 : i = k - 1 := by omega
    rw [hik1]
    have htake : (evalsOnDomain f k g).take (k - 1 + 1) = evalsOnDomain f k g := by
      apply List.take_of_length_le
      rw [evalsOnDomain_length]
      omega
    rw [htake, hprod]
    have h1 : ((evalsOnDomain f k g).take (0 + 1)).prod = Poly.eval f (g ^ 0) := by
      rw [List.prod_take_succ _ 0 (by rw [evalsOnDomain_length]; omega)]
      simp [evalsOnDomain]
    rw [h1]
    ring

/-- Completeness of the product argument: when `f`'s domain evaluations
multiply to 1, the proof `prove_unit_product` emits passes
`verify_unit_product` on the same transcript prefix, and both sides leave the
transcript in the same state. -/
theorem prove_unit_product_complete (pcs : PCS F C Pf) (chal : List (FSEvent C) → F)
    (f : List F) (dom : Domain F) (ts : FS C) (flbl : String) (fb : Option Nat)
    (hpc : ∀ (lbl : String) (b : Option Nat) (q : List F) (x : F),
      pcs.check { label := lbl, cmt := pcs.commit b q, degree := b } x
        (Poly.eval q x) (pcs.openAt q x) = true)
    (hg : IsPrimitiveRoot dom.group_gen dom.size)
    (hk : 0 < dom.size) (hkF : ((dom.size : F)) ≠ 0)
    (hprod : (evalsOnDomain f dom.size dom.group_gen).prod = 1) :
    verify_unit_product pcs chal
        { label := flbl, cmt := pcs.commit fb f, degree := fb }
        (prove_unit_product pcs chal f dom ts).1 dom ts
      = (true, (prove_unit_product pcs chal f dom ts).2) := by
  have hw1 : dom.element 1 = dom.group_gen := by
    rw [Domain.element, pow_one]
  have hident := divMod_exact ((List.range dom.size).map fun i => dom.group_gen ^ i)
    (Poly.sub
      (Poly.shiftScale (dom.element 1)
        (idft dom.size dom.group_gen
          (partial_products_in_place (evalsOnDomain f dom.size dom.group_gen))))
      (Poly.mul (Poly.shiftScale (dom.element 1) f)
        (idft dom.size dom.group_gen
          (partial_products_in_place (evalsOnDomain f dom.size dom.group_gen)))))
    (Poly.vanishing dom.size)
    (by rw [vanishing_lead dom.size hk]; exact one_ne_zero)
    (by rw [vanishing_length]; simp)
    (pow_nodes_pairwise dom.size dom.group_gen hg)
    (by
      intro x hx
      rcases List.mem_map.mp hx with ⟨i, hi, rfl⟩
      rw [hw1]
      exact unit_product_numerator_zero f dom.size dom.group_gen hg hkF hk hprod i
        (List.mem_range.mp hi))
    (by
      intro x hx
      rcases List.mem_map.mp hx with ⟨i, hi, rfl⟩
      exact vanishing_eval_at_root_pow dom.size i dom.group_gen hg)
  have hpoint : ∀ x : F,
      Poly.eval (idft dom.size dom.group_gen
          (partial_products_in_place (evalsOnDomain f dom.size dom.group_gen)))
          (dom.element 1 * x)
        - Poly.eval (idft dom.size dom.group_gen
            (partial_products_in_place (evalsOnDomain f dom.size dom.group_gen))) x
          * Poly.eval f (dom.element 1 * x)
      = (x ^ dom.size - 1)
        * Poly.eval ((Poly.divMod
            (Poly.sub
              (Poly.shiftScale (dom.element 1)
                (idft dom.size dom.group_gen
                  (partial_products_in_place (evalsOnDomain f dom.size dom.group_gen))))
              (Poly.mul (Poly.shiftScale (dom.element 1) f)
                (idft dom.size dom.group_gen
                  (partial_products_in_place (evalsOnDomain f dom.size dom.group_gen)))))
            (Poly.vanishing dom.size)).1) x := by
    intro x
    have h := hident x
    rw [Poly.eval_sub, Poly.eval_mul, Poly.eval_shiftScale, Poly.eval_shiftScale,
      Poly.eval_vanishing] at h
    linear_combination h
  have htwk :
      Poly.eval (idft dom.size dom.group_gen
          (partial_products_in_place (evalsOnDomain f dom.size dom.group_gen)))
          (dom.element (dom.size - 1))
        = 1 := by
    rw [Domain.element]
    rw [t_last_eval f dom.size dom.group_gen hg hkF hk, hprod]
  simp only [prove_unit_product, verify_unit_product, recv_commit, vcheck, evalOpen,
    labeledCmt, FS.absorb, FS.challenge, FS.afterDraw]
  simp only [Prod.mk.injEq]
  refine ⟨?_, trivial⟩
  simp only [Bool.and_eq_true, decide_eq_true_eq]
  exact ⟨⟨⟨⟨⟨⟨hpc _ _ _ _, hpc _ _ _ _⟩, hpc _ _ _ _⟩, hpc _ _ _ _⟩, hpc _ _ _ _⟩,
    hpoint _⟩, htwk⟩

/-- The dividend of `prove_gates` evaluates to the gate identity's left-hand
side: `S(x)·(P(x) + P(w·x)) + (1 - S(x))·P(x)·P(w·x) - P(w²·x)`. -/
theorem eval_gateDividend (s p : List F) (w x : F) :
    Poly.eval (gateDividend s p w) x
      = Poly.eval s x * (Poly.eval p x + Poly.eval p (w * x))
        + (1 - Poly.eval s x) * Poly.eval p x * Poly.eval p (w * x)
        - Poly.eval p (w * w * x) := by
  rw [gateDividend, Poly.eval_sub, Poly.eval_addPad, Poly.eval_mul, Poly.eval_addPad,
    Poly.eval_mul, Poly.eval_addPad, Poly.eval_smul, Poly.eval_mul,
    Poly.eval_shiftScale, Poly.eval_shiftScale, Poly.eval_cons, Poly.eval_nil]
  ring

/-- The global gate identity: under the gate constraint family, the dividend
equals the quotient times the gate vanishing polynomial at every point. -/
theorem gate_identity (p : List F) (circ : CircuitLayout F)
    (hgg : IsPrimitiveRoot circ.domains.gates.group_gen circ.domains.gates.size)
    (hkg : 0 < circ.domains.gates.size)
    (hgate : ∀ i < circ.domains.gates.size,
      Poly.eval circ.s (circ.domains.gates.group_gen ^ i)
          * (Poly.eval p (circ.domains.gates.group_gen ^ i)
            + Poly.eval p (circ.domains.wires.group_gen * circ.domains.gates.group_gen ^ i))
        + (1 - Poly.eval circ.s (circ.domains.gates.group_gen ^ i))
          * Poly.eval p (circ.domains.gates.group_gen ^ i)
          * Poly.eval p (circ.domains.wires.group_gen * circ.domains.gates.group_gen ^ i)
        - Poly.eval p (circ.domains.wires.group_gen * circ.domains.wires.group_gen
            * circ.domains.gates.group_gen ^ i) = 0) :
    ∀ x : F,
      Poly.eval circ.s x * (Poly.eval p x + Poly.eval p (circ.domains.wires.group_gen * x))
        + (1 - Poly.eval circ.s x) * Poly.eval p x
          * Poly.eval p (circ.domains.wires.group_gen * x)
        - Poly.eval p (circ.domains.wires.group_gen * circ.domains.wires.group_gen * x)
      = Poly.eval ((Poly.divMod (gateDividend circ.s p circ.domains.wires.group_gen)
          (Poly.vanishing circ.domains.gates.size)).1) x
        * (x ^ circ.domains.gates.size - 1) := by
  have hident := divMod_exact
    ((List.range circ.domains.gates.size).map fun i => circ.domains.gates.group_gen ^ i)
    (gateDividend circ.s p circ.domains.wires.group_gen)
    (Poly.vanishing circ.domains.gates.size)
    (by rw [vanishing_lead _ hkg]; exact one_ne_zero)
    (by rw [vanishing_length]; simp)
    (pow_nodes_pairwise _ _ hgg)
    (by
      intro x hx
      rcases List.mem_map.mp hx with ⟨i, hi, rfl⟩
      rw [eval_gateDividend]
      exact hgate i (List.mem_range.mp hi))
    (by
      intro x hx
      rcases List.mem_map.mp hx with ⟨i, hi, rfl⟩
      exact vanishing_eval_at_root_pow _ i _ hgg)
  intro x
  have h := hident x
  rw [eval_gateDividend, Poly.eval_vanishing] at h
  linear_combination h

/-- `prove_gates` succeeds (its `assert_eq!` identity holds) whenever the
witness satisfies the gate constraint family. -/
theorem prove_gates_emits (pcs : PCS F C Pf) (chal : List (FSEvent C) → F)
    (p : List F) (circ : CircuitLayout F) (ts : FS C)
    (hgg : IsPrimitiveRoot circ.domains.gates.group_gen circ.domains.gates.size)
    (hkg : 0 < circ.domains.gates.size)
    (hgate : ∀ i < circ.domains.gates.size,
      Poly.eval circ.s (circ.domains.gates.group_gen ^ i)
          * (Poly.eval p (circ.domains.gates.group_gen ^ i)
            + Poly.eval p (circ.domains.wires.group_gen * circ.domains.gates.group_gen ^ i))
        + (1 - Poly.eval circ.s (circ.domains.gates.group_gen ^ i))
          * Poly.eval p (circ.domains.gates.group_gen ^ i)
          * Poly.eval p (circ.domains.wires.group_gen * circ.domains.gates.group_gen ^ i)
        - Poly.eval p (circ.domains.wires.group_gen * circ.domains.wires.group_gen
            * circ.domains.gates.group_gen ^ i) = 0) :
    (prove_gates pcs chal p circ (setup pcs circ) ts).isSome = true := by
  have hguard := gate_identity p circ hgg hkg hgate
  simp only [prove_gates, setup, labeledCmt, evalOpen, FS.absorb, FS.challenge, FS.afterDraw]
  rw [if_pos (hguard _)]
  rfl

/-- Any proof `prove_gates` emits under the gate constraint family passes
`verify_gates` on the same transcript prefix, ending in the same state. -/
theorem prove_gates_verifies (pcs : PCS F C Pf) (chal : List (FSEvent C) → F)
    (p : List F) (circ : CircuitLayout F) (ts : FS C) (plbl : String) (pb : Option Nat)
    (hpc : ∀ (lbl : String) (b : Option Nat) (q : List F) (x : F),
      pcs.check { label := lbl, cmt := pcs.commit b q, degree := b } x
        (Poly.eval q x) (pcs.openAt q x) = true)
    (hgg : IsPrimitiveRoot circ.domains.gates.group_gen circ.domains.gates.size)
    (hkg : 0 < circ.domains.gates.size)
    (hgate : ∀ i < circ.domains.gates.size,
      Poly.eval circ.s (circ.domains.gates.group_gen ^ i)
          * (Poly.eval p (circ.domains.gates.group_gen ^ i)
            + Poly.eval p (circ.domains.wires.group_gen * circ.domains.gates.group_gen ^ i))
        + (1 - Poly.eval circ.s (circ.domains.gates.group_gen ^ i))
          * Poly.eval p (circ.domains.gates.group_gen ^ i)
          * Poly.eval p (circ.domains.wires.group_gen * circ.domains.gates.group_gen ^ i)
        - Poly.eval p (circ.domains.wires.group_gen * circ.domains.wires.group_gen
            * circ.domains.gates.group_gen ^ i) = 0) :
    ∀ res, prove_gates pcs chal p circ (setup pcs circ) ts = some res →
      verify_gates pcs chal { label := plbl, cmt := pcs.commit pb p, degree := pb }
          circ (VerifierParams.ofPub (setup pcs circ)) res.1 ts = (true, res.2) := by
  have hguard := gate_identity p circ hgg hkg hgate
  intro res hres
  rw [prove_gates] at hres
  simp only [setup, labeledCmt, evalOpen, FS.absorb, FS.challenge, FS.afterDraw] at hres
  rw [if_pos (hguard _)] at hres
  injection hres with hres2
  subst hres2
  have hxw : ∀ y : F, y * circ.domains.wires.group_gen
      = circ.domains.wires.group_gen * y := fun y => mul_comm _ _
  have hxww : ∀ y : F,
      y * circ.domains.wires.group_gen * circ.domains.wires.group_gen
        = circ.domains.wires.group_gen * circ.domains.wires.group_gen * y :=
    fun y => by ring
  simp only [verify_gates, VerifierParams.ofPub, setup, recv_commit, vcheck,
    FS.absorb, FS.challenge, FS.afterDraw, labeledCmt]
  simp only [Prod.mk.injEq]
  refine ⟨?_, trivial⟩
  simp only [Bool.and_eq_true, decide_eq_true_eq]
  refine ⟨⟨⟨⟨⟨hpc _ _ _ _, hpc _ _ _ _⟩, hpc _ _ _ _⟩, ?_⟩, ?_⟩, hguard _⟩
  · rw [hxw]
    exact hpc _ _ _ _
  · rw [hxww]
    exact hpc _ _ _ _

/-- The prover-side public polynomial `v` interpolates `p` exactly at the
public points, so `p - v` is exactly divisible by the vanishing polynomial of
the input points: the division identity holds at every point. -/
theorem public_identity (p : List F) (circ : CircuitLayout F)
    (hdist : (circ.public_indices.map fun ni => circ.domains.wires.element ni.2).Pairwise
      (fun a b => a ≠ b)) :
    ∀ x : F,
      Poly.eval p x
        - Poly.eval (interpolate (circ.public_indices.map fun ni =>
            (circ.domains.wires.element ni.2,
              Poly.eval p (circ.domains.wires.element ni.2)))) x
      = Poly.eval ((Poly.divMod
            (Poly.sub p (interpolate (circ.public_indices.map fun ni =>
              (circ.domains.wires.element ni.2,
                Poly.eval p (circ.domains.wires.element ni.2)))))
            circ.vanishing_poly_on_inputs).1) x
        * Poly.eval circ.vanishing_poly_on_inputs x := by
  have hfst : ((circ.public_indices.map fun ni =>
      (circ.domains.wires.element ni.2,
        Poly.eval p (circ.domains.wires.element ni.2))).map Prod.fst)
      = circ.public_indices.map fun ni => circ.domains.wires.element ni.2 := by
    rw [List.map_map]
    rfl
  have hident := divMod_exact
    (circ.public_indices.map fun ni => circ.domains.wires.element ni.2)
    (Poly.sub p (interpolate (circ.public_indices.map fun ni =>
      (circ.domains.wires.element ni.2, Poly.eval p (circ.domains.wires.element ni.2)))))
    circ.vanishing_poly_on_inputs
    (by
      rw [CircuitLayout.vanishing_poly_on_inputs, linear_foldr_lead]
      exact one_ne_zero)
    (by rw [CircuitLayout.vanishing_poly_on_inputs, linear_foldr_length])
    hdist
    (by
      intro x hx
      rcases List.mem_map.mp hx with ⟨ni, hni, rfl⟩
      rw [Poly.eval_sub]
      have hv := eval_interpolate_at_node
        (circ.public_indices.map fun ni =>
          (circ.domains.wires.element ni.2, Poly.eval p (circ.domains.wires.element ni.2)))
        (by rw [hfst]; exact hdist)
        (circ.domains.wires.element ni.2, Poly.eval p (circ.domains.wires.element ni.2))
        (List.mem_map_of_mem _ hni)
      rw [hv]
      ring)
    (by
      intro x hx
      rw [CircuitLayout.vanishing_poly_on_inputs, eval_linear_foldr]
      exact List.prod_eq_zero (List.mem_map.mpr ⟨x, hx, sub_self x⟩))
  intro x
  have h := hident x
  rw [Poly.eval_sub] at h
  linear_combination h

/-- `prove_public` always emits a proof when the public points are distinct:
the remainder it ignores is zero by construction (`v` interpolates the
witness `p` itself), so even the debug identity check passes. -/
theorem prove_public_emits (pcs : PCS F C Pf) (chal : List (FSEvent C) → F)
    (p : List F) (circ : CircuitLayout F) (ts : FS C)
    (hdist : (circ.public_indices.map fun ni => circ.domains.wires.element ni.2).Pairwise
      (fun a b => a ≠ b)) :
    (prove_public pcs chal p circ ts).isSome = true := by
  have hguard := public_identity p circ hdist
  simp only [prove_public, labeledCmt, evalOpen, FS.absorb, FS.challenge, FS.afterDraw]
  rw [if_pos (hguard _)]
  rfl

/-- Any proof `prove_public` emits passes `verify_public` against a declared
public map agreeing with the witness at the public points. -/
theorem prove_public_verifies (pcs : PCS F C Pf) (chal : List (FSEvent C) → F)
    (p : List F) (circ : CircuitLayout F) (ts : FS C) (plbl : String) (pb : Option Nat)
    (public : List (String × F))
    (hpc : ∀ (lbl : String) (b : Option Nat) (q : List F) (x : F),
      pcs.check { label := lbl, cmt := pcs.commit b q, degree := b } x
        (Poly.eval q x) (pcs.openAt q x) = true)
    (hdist : (circ.public_indices.map fun ni => circ.domains.wires.element ni.2).Pairwise
      (fun a b => a ≠ b))
    (hmatch : ∀ ni ∈ circ.public_indices,
      lookupD public ni.1 = Poly.eval p (circ.domains.wires.element ni.2)) :
    ∀ res, prove_public pcs chal p circ ts = some res →
      verify_public pcs chal circ { label := plbl, cmt := pcs.commit pb p, degree := pb }
          res.1 public ts = (true, res.2) := by
  have hguard := public_identity p circ hdist
  have hveq : circ.inputs_poly public
      = interpolate (circ.public_indices.map fun ni =>
          (circ.domains.wires.element ni.2,
            Poly.eval p (circ.domains.wires.element ni.2))) := by
    rw [CircuitLayout.inputs_poly]
    congr 1
    refine List.map_congr_left fun ni hni => ?_
    rw [hmatch ni hni]
  intro res hres
  rw [prove_public] at hres
  simp only [labeledCmt, evalOpen, FS.absorb, FS.challenge, FS.afterDraw] at hres
  rw [if_pos (hguard _)] at hres
  injection hres with hres2
  subst hres2
  simp only [verify_public, recv_commit, vcheck, FS.absorb, FS.challenge, FS.afterDraw,
    labeledCmt, hveq]
  simp only [Prod.mk.injEq]
  refine ⟨?_, trivial⟩
  simp only [Bool.and_eq_true, decide_eq_true_eq]
  exact ⟨⟨hpc _ _ _ _, hpc _ _ _ _⟩, hguard _⟩

/-- If a polynomial `q` of degree `< k` matches the evaluation table `e` on
the whole domain, the interpolation `idft k g e` agrees with `q`
everywhere. -/
theorem eval_idft_of_poly (k : Nat) (g : F) (hg : IsPrimitiveRoot g k)
    (hkF : (k : F) ≠ 0) (e q : List F) (hq : q.length ≤ k)
    (hagree : ∀ i < k, e.getD i 0 = Poly.eval q (g ^ i)) :
    ∀ x, Poly.eval (idft k g e) x = Poly.eval q x := by
  apply Poly.eval_eq_of_agree ((List.range k).map fun i => g ^ i)
  · exact pow_nodes_pairwise k g hg
  · rw [idft_length]
    simp
  · simpa using hq
  · intro pt hpt
    rcases List.mem_map.mp hpt with ⟨i, hi, rfl⟩
    rw [eval_idft k g hg hkF e i (List.mem_range.mp hi),
      hagree i (List.mem_range.mp hi)]

/-- Completeness of the wiring argument: with the challenges `y, z` drawn at
the entry transcript state, if the denominator `P + (z + y·X)` is nonzero on
the whole wiring domain and the grand products of numerator and denominator
agree, then the proof `prove_wiring` emits passes `verify_wiring` on the same
transcript prefix, ending in the same state. -/
theorem prove_wiring_complete (pcs : PCS F C Pf) (chal : List (FSEvent C) → F)
    (p : List F) (pp : PubParams F C) (vp : VerifierParams C) (dom : Domain F)
    (ts : FS C) (plbl : String) (pb : Option Nat)
    (hpc : ∀ (lbl : String) (b : Option Nat) (q : List F) (x : F),
      pcs.check { label := lbl, cmt := pcs.commit b q, degree := b } x
        (Poly.eval q x) (pcs.openAt q x) = true)
    (hwcmt : vp.w_cmt = { label := "w", cmt := pcs.commit none pp.w, degree := none })
    (hg : IsPrimitiveRoot dom.group_gen dom.size)
    (hk2 : 2 ≤ dom.size) (hkF : ((dom.size : F)) ≠ 0)
    (hplen : p.length ≤ dom.size) (hwlen : pp.w.length ≤ dom.size)
    (hden : ∀ i < dom.size,
      Poly.eval p (dom.group_gen ^ i)
        + (chal (ts.log ++ [FSEvent.draw]) + chal ts.log * dom.group_gen ^ i) ≠ 0)
    (hprodeq :
      (∏ i in Finset.range dom.size,
        (Poly.eval p (dom.group_gen ^ i)
          + chal ts.log * Poly.eval pp.w (dom.group_gen ^ i)
          + chal (ts.log ++ [FSEvent.draw])))
      = ∏ i in Finset.range dom.size,
        (Poly.eval p (dom.group_gen ^ i)
          + (chal (ts.log ++ [FSEvent.draw]) + chal ts.log * dom.group_gen ^ i))) :
    verify_wiring pcs chal { label := plbl, cmt := pcs.commit pb p, degree := pb }
        vp dom (prove_wiring pcs chal p pp dom ts).1 ts
      = (true, (prove_wiring pcs chal p pp dom ts).2) := by
  have hk : 0 < dom.size := by omega
  -- the clean form of the pointwise ratio table
  have hl1evals_eq :
      ((List.range dom.size).map fun i =>
        ((List.range dom.size).map fun i =>
          Poly.eval p (dom.group_gen ^ i)
            + chal ts.log * Poly.eval pp.w (dom.group_gen ^ i)
            + chal (ts.log ++ [FSEvent.draw])).getD i 0
        / ((List.range dom.size).map fun i =>
          Poly.eval p (dom.group_gen ^ i)
            + (chal (ts.log ++ [FSEvent.draw]) + chal ts.log * dom.group_gen ^ i)).getD i 0)
      = (List.range dom.size).map fun i =>
          (Poly.eval p (dom.group_gen ^ i)
            + chal ts.log * Poly.eval pp.w (dom.group_gen ^ i)
            + chal (ts.log ++ [FSEvent.draw]))
          / (Poly.eval p (dom.group_gen ^ i)
            + (chal (ts.log ++ [FSEvent.draw]) + chal ts.log * dom.group_gen ^ i)) := by
    refine List.map_congr_left fun i hi => ?_
    rw [getD_map_range _ _ _ (List.mem_range.mp hi),
      getD_map_range _ _ _ (List.mem_range.mp hi)]
  -- node values of L1
  have hl1node : ∀ i < dom.size,
      Poly.eval (idft dom.size dom.group_gen
          ((List.range dom.size).map fun i =>
            (Poly.eval p (dom.group_gen ^ i)
              + chal ts.log * Poly.eval pp.w (dom.group_gen ^ i)
              + chal (ts.log ++ [FSEvent.draw]))
            / (Poly.eval p (dom.group_gen ^ i)
              + (chal (ts.log ++ [FSEvent.draw]) + chal ts.log * dom.group_gen ^ i))))
          (dom.group_gen ^ i)
        = (Poly.eval p (dom.group_gen ^ i)
            + chal ts.log * Poly.eval pp.w (dom.group_gen ^ i)
            + chal (ts.log ++ [FSEvent.draw]))
          / (Poly.eval p (dom.group_gen ^ i)
            + (chal (ts.log ++ [FSEvent.draw]) + chal ts.log * dom.group_gen ^ i)) := by
    intro i hi
    rw [eval_idft dom.size dom.group_gen hg hkF _ i hi, getD_map_range _ _ _ hi]
  -- the domain product of L1 is 1
  have hprodl1 :
      (evalsOnDomain (idft dom.size dom.group_gen
          ((List.range dom.size).map fun i =>
            (Poly.eval p (dom.group_gen ^ i)
              + chal ts.log * Poly.eval pp.w (dom.group_gen ^ i)
              + chal (ts.log ++ [FSEvent.draw]))
            / (Poly.eval p (dom.group_gen ^ i)
              + (chal (ts.log ++ [FSEvent.draw]) + chal ts.log * dom.group_gen ^ i))))
          dom.size dom.group_gen).prod = 1 := by
    rw [evalsOnDomain]
    rw [List.map_congr_left fun i hi => hl1node i (List.mem_range.mp hi)]
    rw [list_range_map_prod]
    rw [Finset.prod_div_distrib]
    rw [hprodeq]
    refine div_self ?_
    refine Finset.prod_ne_zero_iff.mpr fun i hi => hden i (Finset.mem_range.mp hi)
  -- num1 agrees with p + y·w + z everywhere
  have hnum1 : ∀ x : F,
      Poly.eval (idft dom.size dom.group_gen
          ((List.range dom.size).map fun i =>
            Poly.eval p (dom.group_gen ^ i)
              + chal ts.log * Poly.eval pp.w (dom.group_gen ^ i)
              + chal (ts.log ++ [FSEvent.draw]))) x
        = Poly.eval p x + chal ts.log * Poly.eval pp.w x
          + chal (ts.log ++ [FSEvent.draw]) := by
    intro x
    have heq := eval_idft_of_poly dom.size dom.group_gen hg hkF
      ((List.range dom.size).map fun i =>
        Poly.eval p (dom.group_gen ^ i)
          + chal ts.log * Poly.eval pp.w (dom.group_gen ^ i)
          + chal (ts.log ++ [FSEvent.draw]))
      (Poly.addPad (Poly.addPad p (Poly.smul (chal ts.log) pp.w))
        [chal (ts.log ++ [FSEvent.draw])])
      (by
        rw [Poly.addPad_length, Poly.addPad_length, Poly.smul_length]
        simp only [List.length_cons, List.length_nil]
        omega)
      (fun i hi => by
        rw [getD_map_range _ _ _ hi, Poly.eval_addPad, Poly.eval_addPad, Poly.eval_smul,
          Poly.eval_cons, Poly.eval_nil]
        ring) x
    rw [heq, Poly.eval_addPad, Poly.eval_addPad, Poly.eval_smul, Poly.eval_cons,
      Poly.eval_nil]
    ring
  -- den1 agrees with p + (z + y·X) everywhere
  have hden1 : ∀ x : F,
      Poly.eval (idft dom.size dom.group_gen
          ((List.range dom.size).map fun i =>
            Poly.eval p (dom.group_gen ^ i)
              + (chal (ts.log ++ [FSEvent.draw]) + chal ts.log * dom.group_gen ^ i))) x
        = Poly.eval p x + (chal (ts.log ++ [FSEvent.draw]) + chal ts.log * x) := by
    intro x
    have heq := eval_idft_of_poly dom.size dom.group_gen hg hkF
      ((List.range dom.size).map fun i =>
        Poly.eval p (dom.group_gen ^ i)
          + (chal (ts.log ++ [FSEvent.draw]) + chal ts.log * dom.group_gen ^ i))
      (Poly.addPad p [chal (ts.log ++ [FSEvent.draw]), chal ts.log])
      (by
        rw [Poly.addPad_length]
        simp only [List.length_cons, List.length_nil]
        omega)
      (fun i hi => by
        rw [getD_map_range _ _ _ hi, Poly.eval_addPad, Poly.eval_cons, Poly.eval_cons,
          Poly.eval_nil]
        ring) x
    rw [heq, Poly.eval_addPad, Poly.eval_cons, Poly.eval_cons, Poly.eval_nil]
    ring
  -- the L2 quotient identity holds everywhere
  have hl2 : ∀ x : F,
      Poly.eval (idft dom.size dom.group_gen
          ((List.range dom.size).map fun i =>
            (Poly.eval p (dom.group_gen ^ i)
              + chal ts.log * Poly.eval pp.w (dom.group_gen ^ i)
              + chal (ts.log ++ [FSEvent.draw]))
            / (Poly.eval p (dom.group_gen ^ i)
              + (chal (ts.log ++ [FSEvent.draw]) + chal ts.log * dom.group_gen ^ i)))) x
        * Poly.eval (idft dom.size dom.group_gen
          ((List.range dom.size).map fun i =>
            Poly.eval p (dom.group_gen ^ i)
              + (chal (ts.log ++ [FSEvent.draw]) + chal ts.log * dom.group_gen ^ i))) x
        - Poly.eval (idft dom.size dom.group_gen
          ((List.range dom.size).map fun i =>
            Poly.eval p (dom.group_gen ^ i)
              + chal ts.log * Poly.eval pp.w (dom.group_gen ^ i)
              + chal (ts.log ++ [FSEvent.draw]))) x
      = Poly.eval ((Poly.divMod
          (Poly.sub
            (Poly.mul
              (idft dom.size dom.group_gen
                ((List.range dom.size).map fun i =>
                  (Poly.eval p (dom.group_gen ^ i)
                    + chal ts.log * Poly.eval pp.w (dom.group_gen ^ i)
                    + chal (ts.log ++ [FSEvent.draw]))
                  / (Poly.eval p (dom.group_gen ^ i)
                    + (chal (ts.log ++ [FSEvent.draw]) + chal ts.log * dom.group_gen ^ i))))
              (idft dom.size dom.group_gen
                ((List.range dom.size).map fun i =>
                  Poly.eval p (dom.group_gen ^ i)
                    + (chal (ts.log ++ [FSEvent.draw]) + chal ts.log * dom.group_gen ^ i))))
            (idft dom.size dom.group_gen
              ((List.range dom.size).map fun i =>
                Poly.eval p (dom.group_gen ^ i)
                  + chal ts.log * Poly.eval pp.w (dom.group_gen ^ i)
                  + chal (ts.log ++ [FSEvent.draw]))))
          (Poly.vanishing dom.size)).1) x
        * (x ^ dom.size - 1) := by
    have hident := divMod_exact ((List.range dom.size).map fun i => dom.group_gen ^ i)
      (Poly.sub
        (Poly.mul
          (idft dom.size dom.group_gen
            ((List.range dom.size).map fun i =>
              (Poly.eval p (dom.group_gen ^ i)
                + chal ts.log * Poly.eval pp.w (dom.group_gen ^ i)
                + chal (ts.log ++ [FSEvent.draw]))
              / (Poly.eval p (dom.group_gen ^ i)
                + (chal (ts.log ++ [FSEvent.draw]) + chal ts.log * dom.group_gen ^ i))))
          (idft dom.size dom.group_gen
            ((List.range dom.size).map fun i =>
              Poly.eval p (dom.group_gen ^ i)
                + (chal (ts.log ++ [FSEvent.draw]) + chal ts.log * dom.group_gen ^ i))))
        (idft dom.size dom.group_gen
          ((List.range dom.size).map fun i =>
            Poly.eval p (dom.group_gen ^ i)
              + chal ts.log * Poly.eval pp.w (dom.group_gen ^ i)
              + chal (ts.log ++ [FSEvent.draw]))))
      (Poly.vanishing dom.size)
      (by rw [vanishing_lead _ hk]; exact one_ne_zero)
      (by rw [vanishing_length]; simp)
      (pow_nodes_pairwise _ _ hg)
      (by
        intro x hx
        rcases List.mem_map.mp hx with ⟨i, hi, rfl⟩
        have hik := List.mem_range.mp hi
        rw [Poly.eval_sub, Poly.eval_mul, hl1node i hik]
        rw [eval_idft dom.size dom.group_gen hg hkF _ i hik, getD_map_range _ _ _ hik]
        rw [eval_idft dom.size dom.group_gen hg hkF _ i hik, getD_map_range _ _ _ hik]
        rw [div_mul_cancel₀ _ (hden i hik)]
        ring)
      (by
        intro x hx
        rcases List.mem_map.mp hx with ⟨i, hi, rfl⟩
        exact vanishing_eval_at_root_pow _ i _ hg)
    intro x
    have h := hident x
    rw [Poly.eval_sub, Poly.eval_mul, Poly.eval_vanishing] at h
    linear_combination h
  -- the verifier identity in its revealed-values form, at every point
  have hfinal : ∀ x : F,
      (Poly.eval p x + chal ts.log * x + chal (ts.log ++ [FSEvent.draw]))
        * Poly.eval (idft dom.size dom.group_gen
            ((List.range dom.size).map fun i =>
              (Poly.eval p (dom.group_gen ^ i)
                + chal ts.log * Poly.eval pp.w (dom.group_gen ^ i)
                + chal (ts.log ++ [FSEvent.draw]))
              / (Poly.eval p (dom.group_gen ^ i)
                + (chal (ts.log ++ [FSEvent.draw]) + chal ts.log * dom.group_gen ^ i)))) x
      - (Poly.eval p x + chal ts.log * Poly.eval pp.w x
          + chal (ts.log ++ [FSEvent.draw]))
      = Poly.eval ((Poly.divMod
          (Poly.sub
            (Poly.mul
              (idft dom.size dom.group_gen
                ((List.range dom.size).map fun i =>
                  (Poly.eval p (dom.group_gen ^ i)
                    + chal ts.log * Poly.eval pp.w (dom.group_gen ^ i)
                    + chal (ts.log ++ [FSEvent.draw]))
                  / (Poly.eval p (dom.group_gen ^ i)
                    + (chal (ts.log ++ [FSEvent.draw]) + chal ts.log * dom.group_gen ^ i))))
              (idft dom.size dom.group_gen
                ((List.range dom.size).map fun i =>
                  Poly.eval p (dom.group_gen ^ i)
                    + (chal (ts.log ++ [FSEvent.draw]) + chal ts.log * dom.group_gen ^ i))))
            (idft dom.size dom.group_gen
              ((List.range dom.size).map fun i =>
                Poly.eval p (dom.group_gen ^ i)
                  + chal ts.log * Poly.eval pp.w (dom.group_gen ^ i)
                  + chal (ts.log ++ [FSEvent.draw]))))
          (Poly.vanishing dom.size)).1) x
        * (x ^ dom.size - 1) := by
    intro x
    have h := hl2 x
    rw [hnum1 x, hden1 x] at h
    linear_combination h
  -- assemble
  simp only [prove_wiring, verify_wiring, recv_commit, vcheck, evalOpen, labeledCmt,
    FS.absorb, FS.challenge, FS.afterDraw, hwcmt]
  rw [hl1evals_eq]
  rw [prove_unit_product_complete pcs chal
    (idft dom.size dom.group_gen
      ((List.range dom.size).map fun i =>
        (Poly.eval p (dom.group_gen ^ i)
          + chal ts.log * Poly.eval pp.w (dom.group_gen ^ i)
          + chal (ts.log ++ [FSEvent.draw]))
        / (Poly.eval p (dom.group_gen ^ i)
          + (chal (ts.log ++ [FSEvent.draw]) + chal ts.log * dom.group_gen ^ i))))
    dom
    ⟨((ts.log ++ [FSEvent.draw]) ++ [FSEvent.draw])
      ++ [FSEvent.absorb
        { label := "l1"
          cmt := pcs.commit none (idft dom.size dom.group_gen
            ((List.range dom.size).map fun i =>
              (Poly.eval p (dom.group_gen ^ i)
                + chal ts.log * Poly.eval pp.w (dom.group_gen ^ i)
                + chal (ts.log ++ [FSEvent.draw]))
              / (Poly.eval p (dom.group_gen ^ i)
                + (chal (ts.log ++ [FSEvent.draw]) + chal ts.log * dom.group_gen ^ i))))
          degree := none }]⟩
    "l1" none hpc hg hk hkF hprodl1]
  simp only [Prod.mk.injEq]
  refine ⟨?_, trivial⟩
  simp only [Bool.and_eq_true, decide_eq_true_eq, Bool.true_and]
  refine ⟨⟨⟨⟨hpc _ _ _ _, hpc _ _ _ _⟩, hpc _ _ _ _⟩, hpc _ _ _ _⟩, ?_⟩
  exact hfinal _

/-- C1: completeness of the full protocol.  For a circuit layout whose
witness satisfies the gate, wiring and public-input constraint families
(the wiring product and denominator conditions phrased at the actually-drawn
challenges), `Prover.prove` emits a proof and `Verifier.verify` on the
witness-free circuit, the proof, the declared public values and the verifier
parameters accepts, with the same final transcript. -/
theorem plonk_completeness (pcs : PCS F C Pf) (chal : List (FSEvent C) → F)
    (circ : CircuitLayout F) (public : List (String × F)) (ts0 : FS C) (pl : List F)
    (hpc : ∀ (lbl : String) (b : Option Nat) (q : List F) (x : F),
      pcs.check { label := lbl, cmt := pcs.commit b q, degree := b } x
        (Poly.eval q x) (pcs.openAt q x) = true)
    (hp : circ.p = some pl)
    (hkg : 0 < circ.domains.gates.size)
    (hgg : IsPrimitiveRoot circ.domains.gates.group_gen circ.domains.gates.size)
    (hgw : IsPrimitiveRoot circ.domains.wires.group_gen circ.domains.wires.size)
    (hkw2 : 2 ≤ circ.domains.wires.size)
    (hkwF : ((circ.domains.wires.size : F)) ≠ 0)
    (hplen : pl.length ≤ circ.domains.wires.size)
    (hwlen : circ.w.length ≤ circ.domains.wires.size)
    (hdist : (circ.public_indices.map fun ni => circ.domains.wires.element ni.2).Pairwise
      (fun a b => a ≠ b))
    (hmatch : ∀ ni ∈ circ.public_indices,
      lookupD public ni.1 = Poly.eval pl (circ.domains.wires.element ni.2))
    (hgate : ∀ i < circ.domains.gates.size,
      Poly.eval circ.s (circ.domains.gates.group_gen ^ i)
          * (Poly.eval pl (circ.domains.gates.group_gen ^ i)
            + Poly.eval pl (circ.domains.wires.group_gen * circ.domains.gates.group_gen ^ i))
        + (1 - Poly.eval circ.s (circ.domains.gates.group_gen ^ i))
          * Poly.eval pl (circ.domains.gates.group_gen ^ i)
          * Poly.eval pl (circ.domains.wires.group_gen * circ.domains.gates.group_gen ^ i)
        - Poly.eval pl (circ.domains.wires.group_gen * circ.domains.wires.group_gen
            * circ.domains.gates.group_gen ^ i) = 0)
    (hwiring : ∀ st : ProveStage F C Pf,
      prove_stage pcs chal circ (setup pcs circ) ts0 = some st →
      (∀ i < circ.domains.wires.size,
        Poly.eval pl (circ.domains.wires.group_gen ^ i)
          + (chal (st.ts.log ++ [FSEvent.draw])
            + chal st.ts.log * circ.domains.wires.group_gen ^ i) ≠ 0)
      ∧ (∏ i in Finset.range circ.domains.wires.size,
          (Poly.eval pl (circ.domains.wires.group_gen ^ i)
            + chal st.ts.log * Poly.eval circ.w (circ.domains.wires.group_gen ^ i)
            + chal (st.ts.log ++ [FSEvent.draw])))
        = ∏ i in Finset.range circ.domains.wires.size,
          (Poly.eval pl (circ.domains.wires.group_gen ^ i)
            + (chal (st.ts.log ++ [FSEvent.draw])
              + chal st.ts.log * circ.domains.wires.group_gen ^ i))) :
    ∃ pf tsEnd,
      prove pcs chal circ (setup pcs circ) ts0 = some (pf, tsEnd)
      ∧ verify pcs chal { circ with p := none } pf public
          (VerifierParams.ofPub (setup pcs circ)) ts0 = some (true, tsEnd) := by
  obtain ⟨pubRes, hpubeq⟩ := Option.isSome_iff_exists.mp
    (prove_public_emits pcs chal pl circ
      (FS.absorb ts0
        { label := "p", cmt := pcs.commit (some (circ.domains.gates.size * 3 - 1)) pl
          degree := some (circ.domains.gates.size * 3 - 1) })
      hdist)
  have hpubver := prove_public_verifies pcs chal pl circ
    (FS.absorb ts0
      { label := "p", cmt := pcs.commit (some (circ.domains.gates.size * 3 - 1)) pl
        degree := some (circ.domains.gates.size * 3 - 1) })
    "p" (some (circ.domains.gates.size * 3 - 1)) public hpc hdist hmatch pubRes hpubeq
  obtain ⟨gRes, hgeq⟩ := Option.isSome_iff_exists.mp
    (prove_gates_emits pcs chal pl circ pubRes.2 hgg hkg hgate)
  have hgver := prove_gates_verifies pcs chal pl circ pubRes.2 "p"
    (some (circ.domains.gates.size * 3 - 1)) hpc hgg hkg hgate gRes hgeq
  have hstage : prove_stage pcs chal circ (setup pcs circ) ts0
      = some { pLC :=
                { label := "p", cmt := pcs.commit (some (circ.domains.gates.size * 3 - 1)) pl
                  degree := some (circ.domains.gates.size * 3 - 1) }
               pl := pl, pub := pubRes.1, gates := gRes.1, ts := gRes.2 } := by
    simp only [prove_stage, hp, labeledCmt]
    rw [hpubeq]
    simp only [Option.some_bind]
    rw [hgeq]
    simp only [Option.some_bind]
  obtain ⟨hden, hprodeq⟩ := hwiring _ hstage
  have hwire := prove_wiring_complete pcs chal pl (setup pcs circ)
    (VerifierParams.ofPub (setup pcs circ)) circ.domains.wires gRes.2 "p"
    (some (circ.domains.gates.size * 3 - 1)) hpc rfl hgw hkw2 hkwF hplen hwlen hden hprodeq
  have hprove : prove pcs chal circ (setup pcs circ) ts0
      = some ({ p_cmt := pcs.commit (some (circ.domains.gates.size * 3 - 1)) pl
                wiring := (prove_wiring pcs chal pl (setup pcs circ)
                  circ.domains.wires gRes.2).1
                gates := gRes.1, public := pubRes.1 },
              (prove_wiring pcs chal pl (setup pcs circ) circ.domains.wires gRes.2).2) := by
    rw [prove, hstage]
    rfl
  refine ⟨_, _, hprove, ?_⟩
  have hcirc_pub : ∀ (lc : LCmt C) (pf2 : PublicProof C (F × Pf))
      (pub2 : List (String × F)) (ts2 : FS C),
      verify_public pcs chal { circ with p := none } lc pf2 pub2 ts2
        = verify_public pcs chal circ lc pf2 pub2 ts2 := fun _ _ _ _ => rfl
  have hcirc_gates : ∀ (lc : LCmt C) (vp2 : VerifierParams C)
      (pf2 : GateProof C (F × Pf)) (ts2 : FS C),
      verify_gates pcs chal lc { circ with p := none } vp2 pf2 ts2
        = verify_gates pcs chal lc circ vp2 pf2 ts2 := fun _ _ _ _ => rfl
  simp only [verify, recv_commit]
  rw [hcirc_pub, hcirc_gates]
  rw [hpubver]
  rw [hgver]
  rw [hwire]
  rfl

/-- `4 = -1` is a primitive square root of unity in `F5`. -/
theorem isPrimitiveRoot_four_two : IsPrimitiveRoot (4 : F5) 2 := by
  constructor
  · decide
  · intro l hl
    rcases Nat.even_or_odd l with he | ho
    · obtain ⟨m, rfl⟩ := he
      exact ⟨m, by omega⟩
    · exfalso
      obtain ⟨m, rfl⟩ := ho
      rw [pow_succ, pow_mul] at hl
      have h42 : ((4 : F5)) ^ 2 = 1 := by decide
      rw [h42, one_pow, one_mul] at hl
      exact absurd hl (by decide)

/-- `1` is a primitive first root of unity in `F5`. -/
theorem isPrimitiveRoot_one_one : IsPrimitiveRoot (1 : F5) 1 :=
  IsPrimitiveRoot.one

/-- C3: `partial_products_in_place` replaces a list with its running partial
products: the length is preserved and, for every position `i` in range,
position `i` of the result holds the product of the original elements at
positions `0` through `i`. -/
theorem C3_partial_products_in_place (l : List F) (i : Nat) (h : i < l.length) :
    (partial_products_in_place l).length = l.length
    ∧ (partial_products_in_place l).getD i 0 = (l.take (i + 1)).prod :=
  ⟨partial_products_in_place_length l, partial_products_in_place_getD l i h⟩

/-- Witness for C3 at the concrete list `[2, 3]` over `F5`. -/
theorem C3_witness :
    (partial_products_in_place [(2 : F5), 3]).length = ([(2 : F5), 3]).length
    ∧ (partial_products_in_place [(2 : F5), 3]).getD 1 0 = ([(2 : F5), 3].take 2).prod :=
  C3_partial_products_in_place [(2 : F5), 3] 1 (by decide)

/-- C10: the debug assertion of `prove_unit_product` reads the partial-product
table at the `usize` index `f.coeffs.len() - 1`; that access is in bounds
exactly when `1 ≤ f.coeffs.len() ≤ domain size`, and when `f` has fewer
coefficients than the domain size the total-product check is applied at
position `f.coeffs.len() - 1` rather than at the last domain point
`size - 1`. -/
theorem C10_unit_product_check_index (f : List F) (k : Nat) (w : F)
    (hk : k < 2 ^ 64) (hf : f.length < 2 ^ 64) :
    (unitProductCheckIndex f.length
        < (partial_products_in_place (evalsOnDomain f k w)).length
      ↔ 1 ≤ f.length ∧ f.length ≤ k)
    ∧ (1 ≤ f.length → f.length < k →
        unitProductCheckIndex f.length = f.length - 1 ∧ f.length - 1 ≠ k - 1) := by
  rw [partial_products_in_place_length, evalsOnDomain_length]
  rw [unitProductCheckIndex, usizeSubOne]
  constructor
  · constructor
    · intro hlt
      constructor <;> omega
    · intro hand
      omega
  · intro h1 h2
    constructor <;> omega

/-- Witness for C10 at a length-1 polynomial over a size-2 domain. -/
theorem C10_witness :
    (unitProductCheckIndex ([(1 : F5)]).length
        < (partial_products_in_place (evalsOnDomain [(1 : F5)] 2 4)).length
      ↔ 1 ≤ ([(1 : F5)]).length ∧ ([(1 : F5)]).length ≤ 2)
    ∧ (1 ≤ ([(1 : F5)]).length → ([(1 : F5)]).length < 2 →
        unitProductCheckIndex ([(1 : F5)]).length = ([(1 : F5)]).length - 1
        ∧ ([(1 : F5)]).length - 1 ≠ 2 - 1) :=
  C10_unit_product_check_index [(1 : F5)] 2 4 (by norm_num) (by norm_num)

/-- C2: `verify_unit_product` absorbs the `t` and `q` commitments, draws the
challenge `r` from the transcript extended by exactly those two absorptions,
checks the five opening proofs through the commitment scheme, and accepts
only if both revealed-value identities hold:
`t(w·r) - t(r)·f(w·r) = Z(r)·q(r)` and `t(w^(k-1)) = 1`; any algebraic
mismatch rejects the proof. -/
theorem C2_verify_unit_product (pcs : PCS F C Pf) (chal : List (FSEvent C) → F)
    (fLC : LCmt C) (pf : ProductProof C (F × Pf)) (dom : Domain F) (ts : FS C)
    (hacc : (verify_unit_product pcs chal fLC pf dom ts).1 = true) :
    pcs.check fLC
        (dom.element 1 * chal ((ts.log
          ++ [FSEvent.absorb { label := "t", cmt := pf.t_cmt, degree := none }])
          ++ [FSEvent.absorb { label := "q", cmt := pf.q_cmt, degree := none }]))
        pf.f_wr_open.1 pf.f_wr_open.2 = true
    ∧ pcs.check { label := "q", cmt := pf.q_cmt, degree := none }
        (chal ((ts.log
          ++ [FSEvent.absorb { label := "t", cmt := pf.t_cmt, degree := none }])
          ++ [FSEvent.absorb { label := "q", cmt := pf.q_cmt, degree := none }]))
        pf.q_r_open.1 pf.q_r_open.2 = true
    ∧ pcs.check { label := "t", cmt := pf.t_cmt, degree := none }
        (chal ((ts.log
          ++ [FSEvent.absorb { label := "t", cmt := pf.t_cmt, degree := none }])
          ++ [FSEvent.absorb { label := "q", cmt := pf.q_cmt, degree := none }]))
        pf.t_r_open.1 pf.t_r_open.2 = true
    ∧ pcs.check { label := "t", cmt := pf.t_cmt, degree := none }
        (dom.element 1 * chal ((ts.log
          ++ [FSEvent.absorb { label := "t", cmt := pf.t_cmt, degree := none }])
          ++ [FSEvent.absorb { label := "q", cmt := pf.q_cmt, degree := none }]))
        pf.t_wr_open.1 pf.t_wr_open.2 = true
    ∧ pcs.check { label := "t", cmt := pf.t_cmt, degree := none }
        (dom.element (dom.size - 1)) pf.t_wk_open.1 pf.t_wk_open.2 = true
    ∧ pf.t_wr_open.1 - pf.t_r_open.1 * pf.f_wr_open.1
        = ((chal ((ts.log
            ++ [FSEvent.absorb { label := "t", cmt := pf.t_cmt, degree := none }])
            ++ [FSEvent.absorb { label := "q", cmt := pf.q_cmt, degree := none }]))
              ^ dom.size - 1)
          * pf.q_r_open.1
    ∧ pf.t_wk_open.1 = 1 := by
  simp only [verify_unit_product, recv_commit, vcheck, FS.absorb, FS.challenge,
    FS.afterDraw, Bool.and_eq_true, decide_eq_true_eq] at hacc
  obtain ⟨⟨⟨⟨⟨⟨h1, h2⟩, h3⟩, h4⟩, h5⟩, h6⟩, h7⟩ := hacc
  exact ⟨h1, h2, h3, h4, h5, h6, h7⟩

/-- Witness for C2: a concrete unit-product proof over `F5` that the
verifier accepts, so the theorem's hypotheses are satisfiable. -/
theorem C2_witness :
    ((prove_unit_product pcsW chalW [1] circW.domains.wires FS.init).1).t_wk_open.1 = 1 :=
  (C2_verify_unit_product pcsW chalW
    { label := "f", cmt := pcsW.commit none [1], degree := none }
    (prove_unit_product pcsW chalW [1] circW.domains.wires FS.init).1
    circW.domains.wires FS.init (by decide)).2.2.2.2.2.2

/-- C4: `verify_gates` accepts only if the revealed values satisfy the gate
identity `S(x)·(P(x)+P(w·x)) + (1-S(x))·P(x)·P(w·x) - P(w·w·x) = Q(x)·Z_gates(x)`
at the challenge `x` drawn after absorbing the quotient commitment, with `w`
the wiring-domain generator and `Z_gates(x) = x^|gates| - 1`; and the dividend
whose quotient `prove_gates` commits (`gateDividend`) is exactly this
identity's left-hand side. -/
theorem C4_gate_identity (pcs : PCS F C Pf) (chal : List (FSEvent C) → F)
    (pLC : LCmt C) (circ : CircuitLayout F) (vp : VerifierParams C)
    (pf : GateProof C (F × Pf)) (ts : FS C)
    (hacc : (verify_gates pcs chal pLC circ vp pf ts).1 = true) :
    (pf.s_open.1 * (pf.p_open.1 + pf.p_w_open.1)
        + (1 - pf.s_open.1) * pf.p_open.1 * pf.p_w_open.1 - pf.p_w2_open.1
      = pf.q_open.1
        * ((chal (ts.log ++ [FSEvent.absorb
            { label := "gates_q", cmt := pf.q_cmt, degree := none }]))
              ^ circ.domains.gates.size - 1))
    ∧ ∀ (s p : List F) (x : F),
        Poly.eval (gateDividend s p circ.domains.wires.group_gen) x
          = Poly.eval s x
              * (Poly.eval p x + Poly.eval p (circ.domains.wires.group_gen * x))
            + (1 - Poly.eval s x) * Poly.eval p x
              * Poly.eval p (circ.domains.wires.group_gen * x)
            - Poly.eval p
                (circ.domains.wires.group_gen * circ.domains.wires.group_gen * x) := by
  constructor
  · simp only [verify_gates, recv_commit, vcheck, FS.absorb, FS.challenge, FS.afterDraw,
      Bool.and_eq_true, decide_eq_true_eq] at hacc
    exact hacc.2
  · intro s p x
    exact eval_gateDividend s p circ.domains.wires.group_gen x

/-- Witness for C4: a concrete gate proof over `F5` that the verifier
accepts. -/
theorem C4_witness :
    (pfW.gates.s_open.1 * (pfW.gates.p_open.1 + pfW.gates.p_w_open.1)
        + (1 - pfW.gates.s_open.1) * pfW.gates.p_open.1 * pfW.gates.p_w_open.1
        - pfW.gates.p_w2_open.1
      = pfW.gates.q_open.1
        * ((chalW (FS.init.log ++ [FSEvent.absorb
            { label := "gates_q", cmt := pfW.gates.q_cmt, degree := none }]))
              ^ circW.domains.gates.size - 1))
    ∧ ∀ (s p : List F5) (x : F5),
        Poly.eval (gateDividend s p circW.domains.wires.group_gen) x
          = Poly.eval s x
              * (Poly.eval p x + Poly.eval p (circW.domains.wires.group_gen * x))
            + (1 - Poly.eval s x) * Poly.eval p x
              * Poly.eval p (circW.domains.wires.group_gen * x)
            - Poly.eval p
                (circW.domains.wires.group_gen * circW.domains.wires.group_gen * x) :=
  C4_gate_identity pcsW chalW
    { label := "p", cmt := pcsW.commit (some 2) [1], degree := some 2 }
    circW (VerifierParams.ofPub (setup pcsW circW)) pfW.gates FS.init (by decide)

/-- C5: `verify_wiring` draws `y` and `z` first, delegates the embedded
`ProductProof` for `L1` to `verify_unit_product` on the transcript extended by
those two draws and the `L1` absorption, then draws `x` after absorbing the
`L2` quotient commitment, and accepts only if the revealed values satisfy
`(P(x) + y·x + z)·L1(x) - (P(x) + y·W(x) + z) = L2_q(x)·Z_domain(x)`. -/
theorem C5_verify_wiring (pcs : PCS F C Pf) (chal : List (FSEvent C) → F)
    (pLC : LCmt C) (vp : VerifierParams C) (dom : Domain F)
    (pf : WiringProof C (F × Pf)) (ts : FS C)
    (hacc : (verify_wiring pcs chal pLC vp dom pf ts).1 = true) :
    (verify_unit_product pcs chal
        { label := "l1", cmt := pf.l1_cmt, degree := none } pf.l1_prod_pf dom
        ⟨((ts.log ++ [FSEvent.draw]) ++ [FSEvent.draw])
          ++ [FSEvent.absorb { label := "l1", cmt := pf.l1_cmt, degree := none }]⟩).1
      = true
    ∧ (pf.p_x_open.1
        + chal ts.log
          * chal ((verify_unit_product pcs chal
              { label := "l1", cmt := pf.l1_cmt, degree := none } pf.l1_prod_pf dom
              ⟨((ts.log ++ [FSEvent.draw]) ++ [FSEvent.draw])
                ++ [FSEvent.absorb
                  { label := "l1", cmt := pf.l1_cmt, degree := none }]⟩).2.log
            ++ [FSEvent.absorb { label := "l2_q", cmt := pf.l2_q_cmt, degree := none }])
        + chal (ts.log ++ [FSEvent.draw]))
        * pf.l1_x_open.1
      - (pf.p_x_open.1 + chal ts.log * pf.w_x_open.1
          + chal (ts.log ++ [FSEvent.draw]))
      = pf.l2_q_x_open.1
        * ((chal ((verify_unit_product pcs chal
              { label := "l1", cmt := pf.l1_cmt, degree := none } pf.l1_prod_pf dom
              ⟨((ts.log ++ [FSEvent.draw]) ++ [FSEvent.draw])
                ++ [FSEvent.absorb
                  { label := "l1", cmt := pf.l1_cmt, degree := none }]⟩).2.log
            ++ [FSEvent.absorb { label := "l2_q", cmt := pf.l2_q_cmt, degree := none }]))
              ^ dom.size - 1) := by
  simp only [verify_wiring, recv_commit, vcheck, FS.absorb, FS.challenge, FS.afterDraw,
    Bool.and_eq_true, decide_eq_true_eq] at hacc
  obtain ⟨⟨⟨⟨⟨h1, _⟩, _⟩, _⟩, _⟩, h6⟩ := hacc
  exact ⟨h1, h6⟩

/-- Witness for C5: a concrete wiring proof over `F5` that the verifier
accepts. -/
theorem C5_witness :
    (verify_unit_product pcsW chalW
        { label := "l1"
          cmt := (prove_wiring pcsW chalW [1] (setup pcsW circW)
            circW.domains.wires FS.init).1.l1_cmt
          degree := none }
        (prove_wiring pcsW chalW [1] (setup pcsW circW)
          circW.domains.wires FS.init).1.l1_prod_pf
        circW.domains.wires
        ⟨((FS.init.log ++ [FSEvent.draw]) ++ [FSEvent.draw])
          ++ [FSEvent.absorb
            { label := "l1"
              cmt := (prove_wiring pcsW chalW [1] (setup pcsW circW)
                circW.domains.wires FS.init).1.l1_cmt
              degree := none }]⟩).1 = true :=
  (C5_verify_wiring pcsW chalW
    { label := "p", cmt := pcsW.commit (some 2) [1], degree := some 2 }
    (VerifierParams.ofPub (setup pcsW circW)) circW.domains.wires
    (prove_wiring pcsW chalW [1] (setup pcsW circW) circW.domains.wires FS.init).1
    FS.init (by decide)).1

/-- Counterexample to C6: over `F5`, the witness `P = 2` of `circC6` disagrees
with the declared public value `1` at the public point `1`: dividing `P - V`
(with `V` interpolating the declared `(point, value)` pairs) by the input
vanishing polynomial leaves the nonzero remainder `[1]`; yet `prove_public`
still emits a proof — it interpolates through the witness's own evaluations
and discards the remainder it binds to `_r`. -/
theorem C6_counterexample :
    (Poly.divMod (Poly.sub [(2 : F5)] (circC6.inputs_poly publicC6))
        circC6.vanishing_poly_on_inputs).2 = [1]
    ∧ (prove_public pcsW chalW [(2 : F5)] circC6 FS.init).isSome = true := by
  decide

/-- C6 (amended): `prove_public` does not reject on a nonzero remainder
against the declared public values.  The declared values do not even reach
it: the interpolant `v` is built from the witness's own evaluations at the
public points and the division remainder is bound to `_r` and discarded, so
whenever the public points are pairwise distinct it emits a `PublicProof`
(even the debug identity check passes). -/
theorem C6_prove_public_always_emits (pcs : PCS F C Pf) (chal : List (FSEvent C) → F)
    (p : List F) (circ : CircuitLayout F) (ts : FS C)
    (hdist : (circ.public_indices.map fun ni => circ.domains.wires.element ni.2).Pairwise
      (fun a b => a ≠ b)) :
    (prove_public pcs chal p circ ts).isSome = true :=
  prove_public_emits pcs chal p circ ts hdist

/-- Witness for C6 at a concrete run over `F5`. -/
theorem C6_witness : (prove_public pcsW chalW [(1 : F5)] circW FS.init).isSome = true :=
  C6_prove_public_always_emits pcsW chalW [(1 : F5)] circW FS.init (by decide)

/-- C7: `Prover.prove` commits the wire polynomial `P` with degree bound
`3·|gate domain| - 1`, then runs the public, gate and wiring sub-arguments in
exactly that order over the single shared transcript; `Verifier.verify`
receives the `P` commitment with the same degree bound and replays the
public, gate and wiring verifications in the identical order, accepting their
conjunction. -/
theorem C7_orchestration (pcs : PCS F C Pf) (chal : List (FSEvent C) → F)
    (circP circV : CircuitLayout F) (pp : PubParams F C) (vp : VerifierParams C)
    (pf : Proof F C Pf) (public : List (String × F)) (ts : FS C) (pl : List F)
    (hp : circP.p = some pl) (hv : circV.p = none) :
    (prove pcs chal circP pp ts
      = (prove_public pcs chal pl circP
          (ts.absorb
            { label := "p"
              cmt := pcs.commit (some (circP.domains.gates.size * 3 - 1)) pl
              degree := some (circP.domains.gates.size * 3 - 1) })).bind fun pubRes =>
        (prove_gates pcs chal pl circP pp pubRes.2).bind fun gateRes =>
        some ({ p_cmt := pcs.commit (some (circP.domains.gates.size * 3 - 1)) pl
                wiring := (prove_wiring pcs chal pl pp circP.domains.wires gateRes.2).1
                gates := gateRes.1
                public := pubRes.1 },
          (prove_wiring pcs chal pl pp circP.domains.wires gateRes.2).2))
    ∧ verify pcs chal circV pf public vp ts
      = (let pRC := recv_commit "p" pf.p_cmt (some (circV.domains.gates.size * 3 - 1)) ts
         let r1 := verify_public pcs chal circV pRC.1 pf.public public pRC.2
         let r2 := verify_gates pcs chal pRC.1 circV vp pf.gates r1.2
         let r3 := verify_wiring pcs chal pRC.1 vp circV.domains.wires pf.wiring r2.2
         some (r1.1 && r2.1 && r3.1, r3.2)) := by
  constructor
  · simp only [prove, prove_stage, hp, labeledCmt, Option.bind_assoc, Option.some_bind]
  · simp only [verify, hv]

/-- Witness for C7 at concrete prover- and verifier-side circuits over
`F5`. -/
theorem C7_witness :
    (prove pcsW chalW circW (setup pcsW circW) FS.init
      = (prove_public pcsW chalW [1] circW
          (FS.init.absorb
            { label := "p"
              cmt := pcsW.commit (some (circW.domains.gates.size * 3 - 1)) [1]
              degree := some (circW.domains.gates.size * 3 - 1) })).bind fun pubRes =>
        (prove_gates pcsW chalW [1] circW (setup pcsW circW) pubRes.2).bind fun gateRes =>
        some ({ p_cmt := pcsW.commit (some (circW.domains.gates.size * 3 - 1)) [1]
                wiring := (prove_wiring pcsW chalW [1] (setup pcsW circW)
                  circW.domains.wires gateRes.2).1
                gates := gateRes.1
                public := pubRes.1 },
          (prove_wiring pcsW chalW [1] (setup pcsW circW) circW.domains.wires gateRes.2).2))
    ∧ verify pcsW chalW circWV pfW publicW (VerifierParams.ofPub (setup pcsW circW)) FS.init
      = (let pRC := recv_commit "p" pfW.p_cmt
           (some (circWV.domains.gates.size * 3 - 1)) FS.init
         let r1 := verify_public pcsW chalW circWV pRC.1 pfW.public publicW pRC.2
         let r2 := verify_gates pcsW chalW pRC.1 circWV
           (VerifierParams.ofPub (setup pcsW circW)) pfW.gates r1.2
         let r3 := verify_wiring pcsW chalW pRC.1
           (VerifierParams.ofPub (setup pcsW circW)) circWV.domains.wires pfW.wiring r2.2
         some (r1.1 && r2.1 && r3.1, r3.2)) :=
  C7_orchestration pcsW chalW circW circWV (setup pcsW circW)
    (VerifierParams.ofPub (setup pcsW circW)) pfW publicW FS.init [1] rfl rfl

/-- C8: `Prover.prove` fails at entry (returns no proof) whenever the
circuit's wire polynomial is absent, and `Verifier.verify` fails at entry
whenever it is present: the requirements `P = Some` on the prover side and
`P = None` on the verifier side are run-time preconditions, not type-level
ones — both sides take the same `CircuitLayout` type. -/
theorem C8_entry_preconditions (pcs : PCS F C Pf) (chal : List (FSEvent C) → F)
    (circP circV : CircuitLayout F) (pp : PubParams F C) (vp : VerifierParams C)
    (pf : Proof F C Pf) (public : List (String × F)) (ts : FS C) (pl : List F)
    (hnone : circP.p = none) (hsome : circV.p = some pl) :
    prove pcs chal circP pp ts = none
    ∧ verify pcs chal circV pf public vp ts = none := by
  constructor
  · simp [prove, prove_stage, hnone]
  · simp [verify, hsome]

/-- Witness for C8: the witness-free circuit aborts the prover and the
witness-carrying circuit aborts the verifier. -/
theorem C8_witness :
    prove pcsW chalW circWV (setup pcsW circW) FS.init = none
    ∧ verify pcsW chalW circW pfW publicW (VerifierParams.ofPub (setup pcsW circW))
        FS.init = none :=
  C8_entry_preconditions pcsW chalW circWV circW (setup pcsW circW)
    (VerifierParams.ofPub (setup pcsW circW)) pfW publicW FS.init [1] rfl rfl

/-- C9: the prover and verifier are deterministic in the transcript seed:
two prover runs from equal transcript states on identical circuits and
public parameters produce identical results, and two verifier runs from
equal transcript states on the same proof derive the identical challenge
sequence (the value of `chal` at every draw-preceding log prefix). -/
theorem C9_transcript_determinism (pcs : PCS F C Pf) (chal : List (FSEvent C) → F)
    (circ : CircuitLayout F) (pp : PubParams F C) (ts1 ts2 : FS C) (h : ts1 = ts2) :
    prove pcs chal circ pp ts1 = prove pcs chal circ pp ts2
    ∧ ∀ (circ2 : CircuitLayout F) (pf : Proof F C Pf) (public : List (String × F))
        (vp : VerifierParams C) (res1 res2 : Bool × FS C),
        verify pcs chal circ2 pf public vp ts1 = some res1 →
        verify pcs chal circ2 pf public vp ts2 = some res2 →
        challengeSeq chal [] res1.2.log = challengeSeq chal [] res2.2.log := by
  subst h
  refine ⟨rfl, ?_⟩
  intro circ2 pf public vp res1 res2 h1 h2
  rw [h1] at h2
  injection h2 with h3
  rw [h3]

/-- Witness for C9 at a concrete accepting run over `F5`. -/
theorem C9_witness :
    prove pcsW chalW circW (setup pcsW circW) FS.init
      = prove pcsW chalW circW (setup pcsW circW) FS.init
    ∧ ∀ (circ2 : CircuitLayout F5) (pf : Proof F5 (Option Nat × List F5) Unit)
        (public : List (String × F5)) (vp : VerifierParams (Option Nat × List F5))
        (res1 res2 : Bool × FS (Option Nat × List F5)),
        verify pcsW chalW circ2 pf public vp FS.init = some res1 →
        verify pcsW chalW circ2 pf public vp FS.init = some res2 →
        challengeSeq chalW [] res1.2.log = challengeSeq chalW [] res2.2.log :=
  C9_transcript_determinism pcsW chalW circW (setup pcsW circW) FS.init FS.init rfl

/-- Witness for C1: the concrete satisfiable circuit `circW` over `F5`, with
the transparent commitment scheme and the constant challenge function: the
prover emits a proof and the verifier accepts it. -/
theorem C1_witness :
    ∃ pf tsEnd,
      prove pcsW chalW circW (setup pcsW circW) FS.init = some (pf, tsEnd)
      ∧ verify pcsW chalW { circW with p := none } pf publicW
          (VerifierParams.ofPub (setup pcsW circW)) FS.init = some (true, tsEnd) :=
  plonk_completeness pcsW chalW circW publicW FS.init [1]
    (by intro lbl b q x; simp [pcsW])
    rfl
    (by decide)
    isPrimitiveRoot_one_one
    isPrimitiveRoot_four_two
    (by decide)
    (by decide)
    (by decide)
    (by decide)
    (by decide)
    (by decide)
    (by decide)
    (fun st _ => by simp only [chalW]; exact ⟨by decide, by decide⟩)

end MpcPlonk